import Mathlib

set_option maxHeartbeats 1000000

/-!
Verification of the rich-text document core of the "Write It" notes
application (src/notes_app.py) against its natural-language specification.

The embedding models:
 - the tk `Text` widget's character buffer and tag ranges as a flat
   character list plus a list of style ranges (the spec declares the
   source's line/column indexing equivalent to flat offsets, sec. 9);
 - the JSON side-channel (`json.dumps` / `json.loads`) as an executable
   printer and fuel-based recursive-descent reader over a JSON value type;
 - the sqlite note store as a list of rows, with per-connection
   `last_insert_rowid` state (sqlite documents that a fresh connection
   returns 0 from `last_insert_rowid()` until it performs an insert).
-/

/-- Left brace character, written by code point to keep it out of string
literals. -/
def lbraceC : Char := Char.ofNat 123

/-- Right brace character. -/
def rbraceC : Char := Char.ofNat 125

/-- JSON values, as produced by Python's `json` module for the data this
application stores (objects keep key order, matching Python dict order). -/
inductive Json where
  | jnull : Json
  | jbool (b : Bool) : Json
  | jnum (n : Nat) : Json
  | jstr (s : String) : Json
  | jarr (xs : List Json) : Json
  | jobj (kvs : List (String × Json)) : Json

/-- Decimal digit character for a value below ten. -/
def digitCh (d : Nat) : Char := Char.ofNat (48 + d)

/-- Decimal rendering of a natural number (the numeral emitted by
`json.dumps` / `str`), most significant digit first. -/
def natChars : Nat → List Char :=
  fun n => go n n
where
  /-- Fuel-bounded digit loop; `fuel ≥ n` suffices. -/
  go : Nat → Nat → List Char
  | 0, n => [digitCh (n % 10)]
  | fuel + 1, n => if n < 10 then [digitCh n] else go fuel (n / 10) ++ [digitCh (n % 10)]

/-- String rendering of a JSON string literal: quote, body, quote.  The
application's data (tag names, decimal ids, base64 payloads) contains no
characters needing escapes, so no escape sequences are emitted. -/
def strChars (s : String) : List Char := '"' :: s.toList ++ ['"']

mutual

/-- Text emitted by `json.dumps` (default separators `", "` and `": "`). -/
def dumpJson : Json → List Char
  | .jnull => "null".toList
  | .jbool true => "true".toList
  | .jbool false => "false".toList
  | .jnum n => natChars n
  | .jstr s => strChars s
  | .jarr xs => '[' :: dumpElems xs ++ [']']
  | .jobj kvs => lbraceC :: dumpFields kvs ++ [rbraceC]

/-- Comma-separated array elements. -/
def dumpElems : List Json → List Char
  | [] => []
  | [x] => dumpJson x
  | x :: y :: tl => dumpJson x ++ ", ".toList ++ dumpElems (y :: tl)

/-- Comma-separated `"key": value` object fields. -/
def dumpFields : List (String × Json) → List Char
  | [] => []
  | [(k, v)] => strChars k ++ ": ".toList ++ dumpJson v
  | (k, v) :: kv :: tl => strChars k ++ ": ".toList ++ dumpJson v ++ ", ".toList ++ dumpFields (kv :: tl)

end

/-- Whitespace recognized between JSON tokens. -/
def isWsCh (c : Char) : Bool := c == ' ' || c == '\t' || c == '\n' || c == '\r'

/-- Drop leading whitespace. -/
def skipWs (cs : List Char) : List Char := cs.dropWhile isWsCh

/-- Decimal digit test. -/
def isDigitCh (c : Char) : Bool := 48 ≤ c.toNat && c.toNat ≤ 57

/-- Numeric value of a digit run, most significant first. -/
def digitsVal (ds : List Char) : Nat := ds.foldl (fun acc c => acc * 10 + (c.toNat - 48)) 0

/-- Read a JSON string body after the opening quote: characters up to the
next quote (the stored data uses no escape sequences). -/
def readStrBody (cs : List Char) : Option (String × List Char) :=
  let body := cs.takeWhile (fun c => c ≠ '"')
  let rest := cs.dropWhile (fun c => c ≠ '"')
  match rest with
  | '"' :: r => some (⟨body⟩, r)
  | _ => none

mutual

/-- Fuel-bounded JSON reader for one value, modelling `json.loads`.
Returns the value and the unconsumed input. -/
def pVal : Nat → List Char → Option (Json × List Char)
  | 0, _ => none
  | fuel + 1, cs =>
    match skipWs cs with
    | [] => none
    | c :: rest =>
      if c = '"' then (readStrBody rest).map (fun p => (Json.jstr p.1, p.2))
      else if c = '[' then
        let r₁ := skipWs rest
        if r₁.head? = some ']' then some (Json.jarr [], r₁.tail)
        else (pElems fuel r₁).map (fun p => (Json.jarr p.1, p.2))
      else if c = lbraceC then
        let r₁ := skipWs rest
        if r₁.head? = some rbraceC then some (Json.jobj [], r₁.tail)
        else (pFields fuel r₁).map (fun p => (Json.jobj p.1, p.2))
      else if c = 't' then
        if rest.take 3 = "rue".toList then some (Json.jbool true, rest.drop 3) else none
      else if c = 'f' then
        if rest.take 4 = "alse".toList then some (Json.jbool false, rest.drop 4) else none
      else if c = 'n' then
        if rest.take 3 = "ull".toList then some (Json.jnull, rest.drop 3) else none
      else if isDigitCh c then
        let ds := (c :: rest).takeWhile isDigitCh
        some (Json.jnum (digitsVal ds), (c :: rest).dropWhile isDigitCh)
      else none

/-- Array elements: value, then `,` and more elements or `]`. -/
def pElems : Nat → List Char → Option (List Json × List Char)
  | 0, _ => none
  | fuel + 1, cs =>
    match pVal fuel cs with
    | none => none
    | some (v, r) =>
      let r' := skipWs r
      if r'.head? = some ',' then (pElems fuel r'.tail).map (fun p => (v :: p.1, p.2))
      else if r'.head? = some ']' then some ([v], r'.tail)
      else none

/-- Object fields: `"key": value`, then `,` and more fields or the closing
brace. -/
def pFields : Nat → List Char → Option (List (String × Json) × List Char)
  | 0, _ => none
  | fuel + 1, cs =>
    match skipWs cs with
    | '"' :: r =>
      match readStrBody r with
      | none => none
      | some (k, r₂) =>
        let r₃ := skipWs r₂
        if r₃.head? = some ':' then
          match pVal fuel r₃.tail with
          | none => none
          | some (v, r₄) =>
            let r₅ := skipWs r₄
            if r₅.head? = some ',' then (pFields fuel r₅.tail).map (fun p => ((k, v) :: p.1, p.2))
            else if r₅.head? = some rbraceC then some ([(k, v)], r₅.tail)
            else none
        else none
    | _ => none

end

/-- Parse a whole string as one JSON document: one value, with only
whitespace allowed after it (`json.loads` rejects trailing data). -/
def parseJson (s : String) : Option Json :=
  match pVal (s.length + 1) s.toList with
  | some (v, rest) => if skipWs rest = [] then some v else none
  | none => none

/-- Style attribute kinds carried by the text widget's tags: the three
boolean tags plus the value-carrying `size_<n>` and `family_<name>` tags. -/
inductive Kind where
  | bold : Kind
  | italic : Kind
  | underline : Kind
  | size (n : Nat) : Kind
  | family (f : String) : Kind
  deriving DecidableEq, Repr

/-- One tagged half-open interval `[start, stop)` of the text buffer. -/
structure StyleRange where
  kind : Kind
  start : Nat
  stop : Nat
  deriving DecidableEq, Repr

/-- The in-memory state of one editing session's document: the character
buffer, the tag ranges in the order they were added (last write wins),
the `images_data` dictionary, and the `image_counter`. -/
structure Doc where
  text : List Char
  styles : List StyleRange
  images : List (String × Json)
  image_counter : Nat

/-- The `current_format` toggle state (sec. 4.2 Typing-Mode Formatter). -/
structure Fmt where
  bold : Bool
  italic : Bool
  underline : Bool
  font_size : Nat
  font_family : String
  deriving DecidableEq, Repr

/-- The persisted editing defaults (settings table row). -/
structure Settings where
  font_size : Nat
  font_family : String
  deriving DecidableEq, Repr

/-- The empty document of a fresh note (`new_note`). -/
def emptyDoc : Doc := { text := [], styles := [], images := [], image_counter := 0 }

/-- Range membership: does `r` cover character offset `o`. -/
def coversAt (r : StyleRange) (o : Nat) : Bool := r.start ≤ o && o < r.stop

/-- Shift of one tag range when `n` characters are inserted at offset `p`
(tk `Text` semantics: a range at or after the insertion point moves right,
a range strictly straddling it grows, text at a range's boundary does not
inherit the tag). -/
def shiftOnInsert (p n : Nat) (r : StyleRange) : StyleRange :=
  if p ≤ r.start then { r with start := r.start + n, stop := r.stop + n }
  else if p < r.stop then { r with stop := r.stop + n }
  else r

/-- Clip of one tag range when characters `[a, b)` are deleted (tk
semantics: the surviving part is re-based; a range left empty disappears). -/
def clipOnDelete (a b : Nat) (r : StyleRange) : Option StyleRange :=
  let d := b - a
  let s := if r.start ≤ a then r.start else if b ≤ r.start then r.start - d else a
  let e := if r.stop ≤ a then r.stop else if b ≤ r.stop then r.stop - d else a
  if s < e then some { r with start := s, stop := e } else none

/-- Raw text-widget insertion (`text_area.insert`): splice the characters
in at offset `p` (clamped to the end, as tk clamps indices) and shift the
tag ranges. -/
def tkInsert (d : Doc) (p : Nat) (s : List Char) : Doc :=
  let p' := min p d.text.length
  { d with
    text := d.text.take p' ++ s ++ d.text.drop p'
    styles := d.styles.map (shiftOnInsert p' s.length) }

/-- Raw text-widget deletion (`text_area.delete`): remove characters
`[a, b)` (clamped) and clip the tag ranges. -/
def tkDelete (d : Doc) (a b : Nat) : Doc :=
  let a' := min a d.text.length
  let b' := min b d.text.length
  if a' < b' then
    { d with
      text := d.text.take a' ++ d.text.drop b'
      styles := d.styles.filterMap (clipOnDelete a' b') }
  else d

/-- Tagging a range (`text_area.tag_add`): appended to the range list; tk
ignores an empty interval. -/
def tagAdd (d : Doc) (k : Kind) (a b : Nat) : Doc :=
  if a < b then { d with styles := d.styles ++ [⟨k, a, b⟩] } else d

/-- Untagging a range (`text_area.tag_remove`): every range of kind `k` is
intersected away from `[a, b)`, splitting a range that strictly contains
the removed interval. -/
def tagRemove (d : Doc) (k : Kind) (a b : Nat) : Doc :=
  { d with
    styles := d.styles.flatMap fun r =>
      if r.kind = k then
        (if r.start < min r.stop a then [{ r with stop := min r.stop a }] else []) ++
        (if max r.start b < r.stop then [{ r with start := max r.start b }] else [])
      else [r] }

/-- Body of `apply_current_formatting(start_pos, end_pos)`: tag the span
with every boolean kind toggled on, plus `size_<n>` when the toggled size
differs from the settings default and `family_<f>` when the toggled family
differs from the settings default. -/
def apply_current_formatting (fmt : Fmt) (settings : Settings) (d : Doc) (a b : Nat) : Doc :=
  let d := if fmt.bold then tagAdd d .bold a b else d
  let d := if fmt.italic then tagAdd d .italic a b else d
  let d := if fmt.underline then tagAdd d .underline a b else d
  let d := if fmt.font_size ≠ settings.font_size then tagAdd d (.size fmt.font_size) a b else d
  let d := if fmt.font_family ≠ settings.font_family then tagAdd d (.family fmt.font_family) a b else d
  d

/-- Body of `on_text_modified` after a modification that left the cursor
at offset `cur`: apply the current formatting over the single character
before the cursor (`index(INSERT) - 1c`, clamped at the buffer start),
when that span is nonempty. -/
def on_text_modified (fmt : Fmt) (settings : Settings) (d : Doc) (cur : Nat) : Doc :=
  let start := cur - 1
  if start < cur then apply_current_formatting fmt settings d start cur else d

/-- One user text insertion at offset `p`: the widget splices the
characters in, then the `<<Modified>>` callback runs with the cursor at
the end of the inserted span. -/
def insertTextOp (fmt : Fmt) (settings : Settings) (d : Doc) (p : Nat) (s : List Char) : Doc :=
  if s.isEmpty then d
  else
    let p' := min p d.text.length
    on_text_modified fmt settings (tkInsert d p s) (p' + s.length)

/-- One user text deletion of `[a, b)`: the widget removes the span, then
the `<<Modified>>` callback runs with the cursor at the deletion point. -/
def deleteTextOp (fmt : Fmt) (settings : Settings) (d : Doc) (a b : Nat) : Doc :=
  let a' := min a d.text.length
  let b' := min b d.text.length
  if a' < b' then on_text_modified fmt settings (tkDelete d a b) a' else d

/-- Toggle state plus document effect of `toggle_bold`: flip the flag; tag
or untag the selection when one exists, else the single character at the
cursor (`insert` to `insert + 1c`, clamped). -/
def toggle_bold (fmt : Fmt) (d : Doc) (sel : Option (Nat × Nat)) (cur : Nat) : Fmt × Doc :=
  let fmt' := { fmt with bold := !fmt.bold }
  let (a, b) := sel.getD (cur, min (cur + 1) d.text.length)
  (fmt', if fmt'.bold then tagAdd d .bold a b else tagRemove d .bold a b)

/-- Document effect of `toggle_italic`; see `toggle_bold`. -/
def toggle_italic (fmt : Fmt) (d : Doc) (sel : Option (Nat × Nat)) (cur : Nat) : Fmt × Doc :=
  let fmt' := { fmt with italic := !fmt.italic }
  let (a, b) := sel.getD (cur, min (cur + 1) d.text.length)
  (fmt', if fmt'.italic then tagAdd d .italic a b else tagRemove d .italic a b)

/-- Document effect of `toggle_underline`; see `toggle_bold`. -/
def toggle_underline (fmt : Fmt) (d : Doc) (sel : Option (Nat × Nat)) (cur : Nat) : Fmt × Doc :=
  let fmt' := { fmt with underline := !fmt.underline }
  let (a, b) := sel.getD (cur, min (cur + 1) d.text.length)
  (fmt', if fmt'.underline then tagAdd d .underline a b else tagRemove d .underline a b)

/-- The font sizes offered by the size combo box; `save_formatting_data`
and the selection branch of `change_font_size` iterate exactly these. -/
def comboSizes : List Nat := [8, 10, 12, 14, 16, 18, 20, 24]

/-- Effect of `change_font_size(n)`: always records `n` in
`current_format`; with no selection it changes the widget default and
persists it to the settings row, adding no range; with a selection it
removes the combo sizes' tags over the selection and tags it `size_<n>`,
leaving the settings row untouched. -/
def change_font_size (fmt : Fmt) (settings : Settings) (d : Doc)
    (sel : Option (Nat × Nat)) (n : Nat) : Fmt × Settings × Doc :=
  let fmt' := { fmt with font_size := n }
  match sel with
  | none => (fmt', { settings with font_size := n }, d)
  | some (a, b) =>
    let d := comboSizes.foldl (fun acc m => tagRemove acc (.size m) a b) d
    (fmt', settings, tagAdd d (.size n) a b)

/-- An image blob, modelled by the pixel dimensions of the picture its
bytes encode (the PIL decode/encode boundary is external to this core). -/
structure Blob where
  width : Nat
  height : Nat
  deriving DecidableEq, Repr

/-- The PIL downscale applied before display: a picture wider than 500
units is resized to width 500 with proportional height (`int(height *
500/width)`, modelled with truncating division). -/
def resizeImg (b : Blob) : Blob :=
  if 500 < b.width then { width := 500, height := b.height * 500 / b.width } else b

/-- Decimal string of a natural number (`str(n)`). -/
def natStr (n : Nat) : String := ⟨natChars n⟩

/-- Base64 text standing for the encoded bytes of a blob.  The encoding is
injective in the dimensions and uses only base64-alphabet characters; it
stands for `base64.b64encode` of the picture's bytes. -/
def blobB64 (b : Blob) : String := "W" ++ natStr b.width ++ "H" ++ natStr b.height

/-- The literal marker token `[IMAGE:<id>]` (sec. 6 wire format). -/
def markerChars (id : String) : List Char := "[IMAGE:".toList ++ id.toList ++ [']']

/-- Python dict assignment `m[k] = v`: replace the value of an existing
key in place, else append the new binding. -/
def dictSet (m : List (String × Json)) (k : String) (v : Json) : List (String × Json) :=
  if m.any (fun kv => kv.1 = k) then m.map (fun kv => if kv.1 = k then (k, v) else kv)
  else m ++ [(k, v)]

/-- Shared tail of `insert_image` and `paste_from_clipboard`: allocate the
id from `image_counter`, create the embedded display image at the cursor,
record `payload` in `images_data`, then insert the marker text at the
cursor and immediately delete the span just inserted.  The embedded
picture is not a buffer character, but it does occupy one text-widget
index of its own, which this character buffer does not record: character
offsets and widget indices agree only while no embedded image is present,
so the serialization law below is stated for image-free documents. -/
def insertImageCore (d : Doc) (pos : Nat) (payload : String) : Doc :=
  let img_id := natStr d.image_counter
  let d := { d with image_counter := d.image_counter + 1 }
  let d := { d with images := dictSet d.images img_id (Json.jstr payload) }
  let p := min pos d.text.length
  let marker := markerChars img_id
  let d := tkInsert d p marker
  tkDelete d p (p + marker.length)

/-- Effect of `insert_image` (file dialog path) on the document: the
display copy is resized, but the payload stored in `images_data` is the
base64 of the original file's bytes, read back from disk unresized. -/
def insert_image (d : Doc) (pos : Nat) (b : Blob) : Doc :=
  insertImageCore d pos (blobB64 b)

/-- Effect of the image branch of `paste_from_clipboard`: the clipboard
picture is resized first and the payload stored in `images_data` is the
PNG re-encoding of the resized picture. -/
def paste_image (d : Doc) (pos : Nat) (b : Blob) : Doc :=
  insertImageCore d pos (blobB64 (resizeImg b))

/-- The five-key formatting dictionary built by `save_formatting_data`. -/
structure FmtData where
  bold : List (Nat × Nat)
  italic : List (Nat × Nat)
  underline : List (Nat × Nat)
  font_size : List (Nat × List (Nat × Nat))
  font_family : List (String × List (Nat × Nat))
  deriving DecidableEq, Repr

/-- The `(start, end)` pairs of every range of one tag kind, in tag-add
order (`tag_ranges`; coverage equals the widget's coalesced ranges). -/
def collectPairs (k : Kind) (styles : List StyleRange) : List (Nat × Nat) :=
  styles.filterMap fun r => if r.kind = k then some (r.start, r.stop) else none

/-- Body of `save_formatting_data`: the three boolean tags' ranges, plus
per-value groups for the combo-box sizes and for the host's font families
(a `font_size`/`font_family` key appears only when that value has
ranges). -/
def save_formatting_data (fonts : List String) (d : Doc) : FmtData :=
  { bold := collectPairs .bold d.styles
    italic := collectPairs .italic d.styles
    underline := collectPairs .underline d.styles
    font_size := comboSizes.filterMap fun n =>
      let ps := collectPairs (.size n) d.styles
      if ps.isEmpty then none else some (n, ps)
    font_family := fonts.filterMap fun f =>
      let ps := collectPairs (.family f) d.styles
      if ps.isEmpty then none else some (f, ps) }

/-- JSON form of a list of `(start, end)` pairs. -/
def pairsJson (ps : List (Nat × Nat)) : Json :=
  .jarr (ps.map fun p => .jarr [.jnum p.1, .jnum p.2])

/-- JSON object `json.dumps` receives for the formatting dictionary.
Positions are emitted as flat integer offsets (the source stores tk
line.column index strings; sec. 9 declares the encodings equivalent). -/
def fmtJson (fd : FmtData) : Json :=
  .jobj [("bold", pairsJson fd.bold),
         ("italic", pairsJson fd.italic),
         ("underline", pairsJson fd.underline),
         ("font_size", .jobj (fd.font_size.map fun g => (natStr g.1, pairsJson g.2))),
         ("font_family", .jobj (fd.font_family.map fun g => (g.1, pairsJson g.2)))]

/-- One persisted notes row's four data columns. -/
structure NoteRecord where
  title : String
  content : String
  images : String
  formatting : String
  deriving DecidableEq, Repr

/-- Literal two-character text of an empty JSON object. -/
def emptyObjStr : String := ⟨[lbraceC, rbraceC]⟩

/-- Text stored for an images dictionary (`json.dumps(d) if d else` the
empty-object literal). -/
def imagesStr (m : List (String × Json)) : String :=
  if m.isEmpty then emptyObjStr else ⟨dumpJson (.jobj m)⟩

/-- Text stored for a formatting dictionary; the dictionary
`save_formatting_data` builds always has its five keys, hence is truthy
and is dumped. -/
def fmtStr (fd : FmtData) : String := ⟨dumpJson (fmtJson fd)⟩

/-- The row written by `save_note`: `content` is `text_area.get(1.0, END)`,
which carries the widget's automatic trailing newline; `images` and
`formatting` are the JSON dumps (an empty/falsy dictionary is stored as
the literal text of an empty object). -/
def serializeRecord (fonts : List String) (d : Doc) (title : String) : NoteRecord :=
  { title := title
    content := ⟨d.text ++ ['\n']⟩
    images := imagesStr d.images
    formatting := fmtStr (save_formatting_data fonts d) }

/-- First offset at which `pat` occurs in `s` (`Text.search`). -/
def findSub (pat s : List Char) : Option Nat :=
  go s 0
where
  go : List Char → Nat → Option Nat
  | [], _ => none
  | c :: tl, i => if pat.isPrefixOf (c :: tl) then some i else go tl (i + 1)

/-- Marker-removal loop of `open_note_by_id` for one image id: search from
`from0`, delete the found span, resume just past it; when the payload is
not a string, `b64decode` raises after the first deletion and the
per-image handler stops the loop (a string payload stands for a valid
stored picture, so its decode succeeds). -/
def stripLoop (pat : List Char) (payloadIsStr : Bool) : Nat → Nat → Doc → Doc
  | 0, _, d => d
  | fuel + 1, from0, d =>
    match findSub pat (d.text.drop from0) with
    | none => d
    | some j =>
      let i := from0 + j
      let d := tkDelete d i (i + pat.length)
      if payloadIsStr then stripLoop pat payloadIsStr fuel (i + pat.length) d else d

/-- Marker removal for one entry of the restored `images_data`. -/
def stripForImage (d : Doc) (kv : String × Json) : Doc :=
  stripLoop (markerChars kv.1) (match kv.2 with | .jstr _ => true | _ => false)
    (d.text.length + 1) 0 d

/-- Python `str.isdigit` for the keys of the images dictionary. -/
def isDigitStr (s : String) : Bool := !s.toList.isEmpty && s.toList.all isDigitCh

/-- Largest numeric id among the keys (`max(..., default=0)`). -/
def maxDigitKey (kvs : List (String × Json)) : Nat :=
  (kvs.filterMap fun kv => if isDigitStr kv.1 then some (digitsVal kv.1.toList) else none).foldl
    max 0

/-- Value lookup in a decoded JSON object (`dict.get`). -/
def getKey (kvs : List (String × Json)) (key : String) : Option Json :=
  (kvs.find? (fun kv => kv.1 = key)).map (·.2)

/-- A flat offset as the loader reads it back out of a stored pair entry
(an integer, or a decimal index string as `str(start)` produced; anything
else makes `tag_add` raise). -/
def posOfJson : Json → Option Nat
  | .jnum n => some n
  | .jstr s => if isDigitStr s then some (digitsVal s.toList) else none
  | _ => none

/-- One `[start, end]` entry of a ranges list; a malformed entry raises
during unpacking or inside `tag_add`. -/
def pairOfJson : Json → Option (Nat × Nat)
  | .jarr [a, b] =>
    match posOfJson a, posOfJson b with
    | some x, some y => some (x, y)
    | _, _ => none
  | _ => none

/-- Apply the entries of one ranges list left to right; the first
malformed entry raises, keeping what was already applied (`false` flags
the raise, which aborts all remaining formatting work). -/
def applyPairs (k : Kind) : Doc → List Json → Doc × Bool
  | d, [] => (d, true)
  | d, e :: es =>
    match pairOfJson e with
    | some p => applyPairs k (tagAdd d k p.1 p.2) es
    | none => (d, false)

/-- A section fetched with `.get(key, [])` must iterate as a list of
entries; an absent key yields the empty default. -/
def sectionArr : Option Json → Option (List Json)
  | none => some []
  | some (.jarr xs) => some xs
  | some _ => none

/-- A section fetched with `.get(key, \x7b\x7d)` must be an object to
offer `.items()`; an absent key yields the empty default. -/
def sectionObj : Option Json → Option (List (String × Json))
  | none => some []
  | some (.jobj kvs) => some kvs
  | some _ => none

/-- One boolean-tag section of the restore: fetch, then apply entries. -/
def applyBoolSection (kvs : List (String × Json)) (key : String) (k : Kind) (d : Doc) :
    Doc × Bool :=
  match sectionArr (getKey kvs key) with
  | none => (d, false)
  | some xs => applyPairs k d xs

/-- The `font_size` groups: each key must convert with `int(size)` before
its ranges are applied. -/
def applySizeGroups : Doc → List (String × Json) → Doc × Bool
  | d, [] => (d, true)
  | d, (key, ranges) :: tl =>
    if isDigitStr key then
      match ranges with
      | .jarr xs =>
        match applyPairs (.size (digitsVal key.toList)) d xs with
        | (d', true) => applySizeGroups d' tl
        | (d', false) => (d', false)
      | _ => (d, false)
    else (d, false)

/-- The `font_family` groups. -/
def applyFamGroups : Doc → List (String × Json) → Doc × Bool
  | d, [] => (d, true)
  | d, (fam, ranges) :: tl =>
    match ranges with
    | .jarr xs =>
      match applyPairs (.family fam) d xs with
      | (d', true) => applyFamGroups d' tl
      | (d', false) => (d', false)
    | _ => (d, false)

/-- Restore of the parsed formatting value, in the source's fixed order
bold, italic, underline, `font_size`, `font_family`; the first exception
aborts the rest but keeps what was already applied (the enclosing handler
only logs). A non-object value raises at the first `.get`. -/
def applyFormattingJson (d0 : Doc) (v : Json) : Doc :=
  match v with
  | .jobj kvs =>
    match applyBoolSection kvs "bold" .bold d0 with
    | (d, false) => d
    | (d, true) =>
      match applyBoolSection kvs "italic" .italic d with
      | (d, false) => d
      | (d, true) =>
        match applyBoolSection kvs "underline" .underline d with
        | (d, false) => d
        | (d, true) =>
          match sectionObj (getKey kvs "font_size") with
          | none => d
          | some groups =>
            match applySizeGroups d groups with
            | (d, false) => d
            | (d, true) =>
              match sectionObj (getKey kvs "font_family") with
              | none => d
              | some fams => (applyFamGroups d fams).1
  | _ => d0

/-- Body of `open_note_by_id` on a fetched row: a fresh buffer receives
the stored content; the images column (when neither empty nor the empty
object) is decoded and each id's markers are removed, then the counter is
reindexed from the keys; the formatting column (same guard) is decoded
and applied, and any decode failure degrades to whatever was applied so
far with no error surfaced to the reader. -/
def openNote (record : NoteRecord) : Doc :=
  let d0 : Doc := { text := record.content.toList, styles := [], images := [], image_counter := 0 }
  let d1 :=
    if record.images = "" ∨ record.images = emptyObjStr then d0
    else
      match parseJson record.images with
      | some (.jobj kvs) =>
        let d := kvs.foldl stripForImage d0
        let d := { d with images := kvs }
        if kvs.isEmpty then d else { d with image_counter := maxDigitKey kvs + 1 }
      | some _ => d0
      | none => d0
  if record.formatting = "" ∨ record.formatting = emptyObjStr then d1
  else
    match parseJson record.formatting with
    | some v => applyFormattingJson d1 v
    | none => d1

/-- One row of the `notes` table (data columns plus the ordering key). -/
structure NoteRow where
  id : Nat
  title : String
  content : String
  images : String
  formatting : String
  updated_at : Nat
  deriving DecidableEq, Repr

/-- Rowid sqlite assigns to a fresh insert: one more than the largest
rowid in the table (one for an empty table). -/
def nextRowId (store : List NoteRow) : Nat :=
  store.foldl (fun m r => max m r.id) 0 + 1

/-- An open sqlite connection: the database plus this connection's
`last_insert_rowid` state, which starts at zero and is set only by an
insert performed through this same connection. -/
structure DbConn where
  db : List NoteRow
  last_rowid : Nat

/-- Opening a connection (`sqlite3.connect`). -/
def connectDb (db : List NoteRow) : DbConn := { db := db, last_rowid := 0 }

/-- The INSERT statement of `save_note_to_db` run on a connection. -/
def insertNoteStmt (c : DbConn) (now : Nat) (title content : String)
    (images_data : List (String × Json)) (formatting_data : FmtData) : DbConn :=
  let new_id := nextRowId c.db
  { db := c.db ++ [{ id := new_id, title := title, content := content
                     images := imagesStr images_data
                     formatting := fmtStr formatting_data, updated_at := now }]
    last_rowid := new_id }

/-- Body of `save_note_to_db`: open a connection, insert, commit, close.
The connection — and with it its `last_insert_rowid` — is discarded. -/
def save_note_to_db (store : List NoteRow) (now : Nat) (title content : String)
    (images_data : List (String × Json)) (formatting_data : FmtData) : List NoteRow :=
  (insertNoteStmt (connectDb store) now title content images_data formatting_data).db

/-- Body of `update_note_in_db`: rewrite the row with the given id,
stamping `updated_at` with the current time. -/
def update_note_in_db (store : List NoteRow) (now : Nat) (note_id : Nat)
    (title content : String) (images_data : List (String × Json))
    (formatting_data : FmtData) : List NoteRow :=
  store.map fun r =>
    if r.id = note_id then
      { r with title := title, content := content, images := imagesStr images_data
               formatting := fmtStr formatting_data, updated_at := now }
    else r

/-- Descending `updated_at` comparison used by the listing queries. -/
def byUpdatedDesc (a b : NoteRow) : Prop := b.updated_at ≤ a.updated_at

instance : DecidableRel byUpdatedDesc := fun a b => Nat.decLe _ _

/-- Rows in the order `ORDER BY updated_at DESC` returns them. -/
def orderByUpdatedDesc (store : List NoteRow) : List NoteRow :=
  List.insertionSort byUpdatedDesc store

/-- Body of `get_notes_from_db`: `(id, title)` pairs ordered by
`updated_at` descending. -/
def get_notes_from_db (store : List NoteRow) : List (Nat × String) :=
  (orderByUpdatedDesc store).map fun r => (r.id, r.title)

/-- Characters Python's default `str.strip` removes. -/
def isPyWs (c : Char) : Bool :=
  c == ' ' || c == '\t' || c == '\n' || c == '\r' || c == '\x0b' || c == '\x0c'

/-- Truth of Python `not content.strip()`. -/
def stripIsEmpty (s : String) : Bool := s.toList.all isPyWs

/-- Body of `save_note`: read the buffer (with the widget's trailing
newline), refuse blank content, prompt for a title and refuse a cancelled
or empty one — both refusals happen before any store call — then build the
formatting dictionary and either insert a new row (reading the "new" id
via `last_insert_rowid()` on a freshly opened connection) or update the
current row.  Returns the store, the session's `current_note_id`, and
whether a save happened. -/
def save_note (fonts : List String) (store : List NoteRow) (now : Nat) (d : Doc)
    (current_note_id : Option Nat) (title_input : Option String) :
    List NoteRow × Option Nat × Bool :=
  let content : String := ⟨d.text ++ ['\n']⟩
  if stripIsEmpty content then (store, current_note_id, false)
  else
    match title_input with
    | none => (store, current_note_id, false)
    | some title =>
      if title = "" then (store, current_note_id, false)
      else
        let fd := save_formatting_data fonts d
        match current_note_id with
        | none =>
          let store' := save_note_to_db store now title content d.images fd
          let new_id := (connectDb store').last_rowid
          (store', some new_id, true)
        | some nid =>
          (update_note_in_db store now nid title content d.images fd, some nid, true)

/-- Whether some range of kind `k` covers offset `o` (tag presence). -/
def kindActiveAt (styles : List StyleRange) (k : Kind) (o : Nat) : Bool :=
  styles.any fun r => r.kind == k && coversAt r o

/-- Value of the most recently added range covering `o` among the kinds
`proj` selects (the spec's last-write-wins tie-break, sec. 4.1): the
range list is scanned newest first. -/
def lastValAt {α : Type} (proj : Kind → Option α) (styles : List StyleRange) (o : Nat) :
    Option α :=
  styles.reverse.findSome? fun r => if coversAt r o then proj r.kind else none

/-- Size value of a kind. -/
def sizeProj : Kind → Option Nat
  | .size n => some n
  | _ => none

/-- Family value of a kind. -/
def famProj : Kind → Option String
  | .family f => some f
  | _ => none

/-- The resolved style set at one character offset (sec. 4.4 `render`):
the three boolean flags plus the effective size and family, falling back
to the session defaults. -/
structure Resolved where
  bold : Bool
  italic : Bool
  underline : Bool
  size : Nat
  family : String
  deriving DecidableEq, Repr

/-- Resolve the styles at offset `o` against the given defaults. -/
def resolvedAt (settings : Settings) (styles : List StyleRange) (o : Nat) : Resolved :=
  { bold := kindActiveAt styles .bold o
    italic := kindActiveAt styles .italic o
    underline := kindActiveAt styles .underline o
    size := (lastValAt sizeProj styles o).getD settings.font_size
    family := (lastValAt famProj styles o).getD settings.font_family }

/-- Documents reachable by an editing session: a fresh note, a loaded
row, or any reachable document after one of the edit operations. -/
inductive ReachableDoc : Doc → Prop where
  | new : ReachableDoc emptyDoc
  | load (record : NoteRecord) : ReachableDoc (openNote record)
  | insertText (fmt : Fmt) (settings : Settings) (p : Nat) (s : List Char) {d : Doc} :
      ReachableDoc d → ReachableDoc (insertTextOp fmt settings d p s)
  | deleteText (fmt : Fmt) (settings : Settings) (a b : Nat) {d : Doc} :
      ReachableDoc d → ReachableDoc (deleteTextOp fmt settings d a b)
  | tglBold (fmt : Fmt) (sel : Option (Nat × Nat)) (cur : Nat) {d : Doc} :
      ReachableDoc d → ReachableDoc (toggle_bold fmt d sel cur).2
  | tglItalic (fmt : Fmt) (sel : Option (Nat × Nat)) (cur : Nat) {d : Doc} :
      ReachableDoc d → ReachableDoc (toggle_italic fmt d sel cur).2
  | tglUnderline (fmt : Fmt) (sel : Option (Nat × Nat)) (cur : Nat) {d : Doc} :
      ReachableDoc d → ReachableDoc (toggle_underline fmt d sel cur).2
  | fontSize (fmt : Fmt) (settings : Settings) (sel : Option (Nat × Nat)) (n : Nat) {d : Doc} :
      ReachableDoc d → ReachableDoc (change_font_size fmt settings d sel n).2.2
  | image (pos : Nat) (b : Blob) {d : Doc} :
      ReachableDoc d → ReachableDoc (insert_image d pos b)
  | paste (pos : Nat) (b : Blob) {d : Doc} :
      ReachableDoc d → ReachableDoc (paste_image d pos b)

/-- The image-id freshness invariant (sec. 3, `nextImageId`): every
numeric id in `images_data` is below the counter. -/
def imgIdInv (d : Doc) : Prop :=
  ∀ kv ∈ d.images, isDigitStr kv.1 = true → digitsVal kv.1.toList < d.image_counter

/-- Whether the character sequence `pat` occurs inside `s`. -/
def occursIn (pat s : List Char) : Prop := ∃ i, pat.isPrefixOf (s.drop i)

/-- A string safe to pass through the JSON writer and reader unescaped:
no quote, no backslash, no control characters. -/
def plainStr (s : String) : Bool :=
  s.toList.all fun c => c ≠ '"' && c ≠ '\\' && 32 ≤ c.toNat

/-- Style ranges produced when the loader re-adds a saved pairs list
(`tag_add` skips an empty interval). -/
def rangesOfPairs (k : Kind) (ps : List (Nat × Nat)) : List StyleRange :=
  ps.filterMap fun p => if p.1 < p.2 then some ⟨k, p.1, p.2⟩ else none

/-- The full style list the loader rebuilds from a formatting dictionary,
in the fixed restore order. -/
def buildStyles (fd : FmtData) : List StyleRange :=
  rangesOfPairs .bold fd.bold ++ rangesOfPairs .italic fd.italic ++
  rangesOfPairs .underline fd.underline ++
  (fd.font_size.flatMap fun g => rangesOfPairs (.size g.1) g.2) ++
  (fd.font_family.flatMap fun g => rangesOfPairs (.family g.1) g.2)

/-- Boolean form of `occursIn`: whether the search of `open_note_by_id`
would find `pat` inside `s`. -/
def containsSeq (pat s : List Char) : Bool := (findSub pat s).isSome

/-- The ranges `apply_current_formatting` appends for a span `[a, b)`:
one per toggled boolean kind, plus the size and family tags when they
differ from the defaults (in the source's order). -/
def acfRanges (fmt : Fmt) (settings : Settings) (a b : Nat) : List StyleRange :=
  (if fmt.bold = true ∧ a < b then [⟨.bold, a, b⟩] else []) ++
  (if fmt.italic = true ∧ a < b then [⟨.italic, a, b⟩] else []) ++
  (if fmt.underline = true ∧ a < b then [⟨.underline, a, b⟩] else []) ++
  (if fmt.font_size ≠ settings.font_size ∧ a < b then [⟨.size fmt.font_size, a, b⟩] else []) ++
  (if fmt.font_family ≠ settings.font_family ∧ a < b then [⟨.family fmt.font_family, a, b⟩]
   else [])

instance : IsTotal NoteRow byUpdatedDesc :=
  ⟨fun a b => (Nat.le_total b.updated_at a.updated_at).imp id id⟩

instance : IsTrans NoteRow byUpdatedDesc :=
  ⟨fun _ _ _ h₁ h₂ => Nat.le_trans h₂ h₁⟩

/-- Digit characters carry their value in code points. -/
theorem digitCh_toNat (d : Nat) (h : d < 10) : (digitCh d).toNat = 48 + d := by
  interval_cases d <;> rfl

/-- Digit characters pass the digit test. -/
theorem isDigitCh_digitCh (d : Nat) (h : d < 10) : isDigitCh (digitCh d) = true := by
  interval_cases d <;> rfl

/-- The digit loop ignores the exact fuel once it is at least the value. -/
theorem natChars_go_congr : ∀ n f₁ f₂, n ≤ f₁ → n ≤ f₂ →
    natChars.go f₁ n = natChars.go f₂ n := by
  intro n
  induction n using Nat.strong_induction_on with
  | _ n ih =>
    intro f₁ f₂ h₁ h₂
    match f₁, f₂ with
    | 0, 0 => rfl
    | 0, g + 1 =>
      have : n = 0 := Nat.le_zero.mp h₁
      subst this
      simp [natChars.go, digitCh]
    | g + 1, 0 =>
      have : n = 0 := Nat.le_zero.mp h₂
      subst this
      simp [natChars.go, digitCh]
    | g + 1, k + 1 =>
      simp only [natChars.go]
      split
      · rfl
      · rename_i hlt
        rw [ih (n / 10) (Nat.div_lt_self (by omega) (by omega)) g k (by omega) (by omega)]

/-- One-step unfolding of the digit loop. -/
theorem natChars_go_succ (f n : Nat) :
    natChars.go (f + 1) n =
      if n < 10 then [digitCh n] else natChars.go f (n / 10) ++ [digitCh (n % 10)] := rfl

/-- Unfolding of the numeral writer for a large value. -/
theorem natChars_eq_of_ge (n : Nat) (h : 10 ≤ n) :
    natChars n = natChars (n / 10) ++ [digitCh (n % 10)] := by
  show natChars.go n n = natChars.go (n / 10) (n / 10) ++ [digitCh (n % 10)]
  match n, h with
  | m + 10, _ =>
    rw [natChars_go_succ (m + 9) (m + 10), if_neg (by omega : ¬ m + 10 < 10),
        natChars_go_congr ((m + 10) / 10) (m + 9) ((m + 10) / 10) (by omega) le_rfl]

/-- Unfolding of the numeral writer for a single digit. -/
theorem natChars_eq_of_lt (n : Nat) (h : n < 10) : natChars n = [digitCh n] := by
  show natChars.go n n = _
  match n with
  | 0 => rfl
  | m + 1 => simp [natChars.go, if_pos h]

/-- Every character the numeral writer emits is a digit. -/
theorem natChars_all_digits (n : Nat) : ∀ c ∈ natChars n, isDigitCh c = true := by
  induction n using Nat.strong_induction_on with
  | _ n ih =>
    by_cases h : n < 10
    · rw [natChars_eq_of_lt n h]
      intro c hc
      simp only [List.mem_singleton] at hc
      subst hc
      exact isDigitCh_digitCh n h
    · rw [natChars_eq_of_ge n (by omega)]
      intro c hc
      rcases List.mem_append.mp hc with h₁ | h₂
      · exact ih (n / 10) (Nat.div_lt_self (by omega) (by omega)) c h₁
      · simp only [List.mem_singleton] at h₂
        subst h₂
        exact isDigitCh_digitCh _ (Nat.mod_lt _ (by omega))

/-- The numeral writer never emits an empty list. -/
theorem natChars_ne_nil (n : Nat) : natChars n ≠ [] := by
  by_cases h : n < 10
  · rw [natChars_eq_of_lt n h]; simp
  · rw [natChars_eq_of_ge n (by omega)]; simp

/-- Reading digits left to right after a prefix. -/
theorem digitsVal_append_singleton (xs : List Char) (c : Char) :
    digitsVal (xs ++ [c]) = digitsVal xs * 10 + (c.toNat - 48) := by
  simp [digitsVal, List.foldl_append]

/-- Reading back the emitted numeral recovers the value. -/
theorem digitsVal_natChars (n : Nat) : digitsVal (natChars n) = n := by
  induction n using Nat.strong_induction_on with
  | _ n ih =>
    by_cases h : n < 10
    · rw [natChars_eq_of_lt n h]
      show digitsVal ([] ++ [digitCh n]) = n
      rw [digitsVal_append_singleton, digitCh_toNat n h]
      simp [digitsVal]
    · rw [natChars_eq_of_ge n (by omega), digitsVal_append_singleton,
          ih (n / 10) (Nat.div_lt_self (by omega) (by omega)),
          digitCh_toNat _ (Nat.mod_lt _ (by omega))]
      omega

/-- The decimal string of a value is a digit string. -/
theorem isDigitStr_natStr (n : Nat) : isDigitStr (natStr n) = true := by
  have h₁ : (natStr n).toList = natChars n := rfl
  simp only [isDigitStr, h₁, Bool.and_eq_true, List.all_eq_true]
  exact ⟨by simpa using natChars_ne_nil n, natChars_all_digits n⟩

/-- Reading the decimal string of a value recovers the value. -/
theorem digitsVal_natStr (n : Nat) : digitsVal (natStr n).toList = n :=
  digitsVal_natChars n

/-- The marker token is never empty. -/
theorem markerChars_length_pos (id : String) : 0 < (markerChars id).length := by
  simp [markerChars]

/-- The insert-then-delete marker dance of `insert_image` and
`paste_from_clipboard` leaves the character buffer exactly as it was. -/
theorem insertImageCore_text (d : Doc) (pos : Nat) (payload : String) :
    (insertImageCore d pos payload).text = d.text := by
  have hp : min pos d.text.length ≤ d.text.length := Nat.min_le_right _ _
  have hm := markerChars_length_pos (natStr d.image_counter)
  simp only [insertImageCore, tkInsert, tkDelete]
  set p := min pos d.text.length with hpdef
  set mk := markerChars (natStr d.image_counter) with hmk
  have h₁ : (d.text.take p).length = p := by
    simp [List.length_take, Nat.min_eq_left hp]
  have hlen : (d.text.take p ++ mk ++ d.text.drop p).length = d.text.length + mk.length := by
    simp [List.length_append, h₁]
    omega
  simp only [Nat.min_self, Nat.min_eq_left hp]
  rw [if_pos]
  · have htk : ((d.text.take p ++ mk ++ d.text.drop p).take (min p (d.text.length + mk.length)))
        = d.text.take p := by
      rw [Nat.min_eq_left (by omega), List.append_assoc, List.take_left' h₁]
    have hdr : ((d.text.take p ++ mk ++ d.text.drop p).drop
        (min (p + mk.length) (d.text.length + mk.length))) = d.text.drop p := by
      rw [Nat.min_eq_left (by omega), List.drop_left']
      simp [List.length_append, h₁]
    simp only [hlen, htk, hdr]
    exact List.take_append_drop p d.text
  · simp only [hlen]
    omega

/-- Deletion does not touch the images dictionary. -/
theorem tkDelete_images (d : Doc) (a b : Nat) : (tkDelete d a b).images = d.images := by
  unfold tkDelete
  dsimp only
  split <;> rfl

/-- Deletion does not touch the image counter. -/
theorem tkDelete_counter (d : Doc) (a b : Nat) :
    (tkDelete d a b).image_counter = d.image_counter := by
  unfold tkDelete
  dsimp only
  split <;> rfl

/-- Tagging does not touch the buffer. -/
theorem tagAdd_text (d : Doc) (k : Kind) (a b : Nat) : (tagAdd d k a b).text = d.text := by
  unfold tagAdd
  split <;> rfl

/-- Tagging does not touch the images dictionary. -/
theorem tagAdd_images (d : Doc) (k : Kind) (a b : Nat) : (tagAdd d k a b).images = d.images := by
  unfold tagAdd
  split <;> rfl

/-- Tagging does not touch the image counter. -/
theorem tagAdd_counter (d : Doc) (k : Kind) (a b : Nat) :
    (tagAdd d k a b).image_counter = d.image_counter := by
  unfold tagAdd
  split <;> rfl

/-- A key not at the head of a Python dict update commutes with it. -/
theorem dictSet_cons (hd : String × Json) (tl : List (String × Json)) (k : String) (v : Json)
    (h : hd.1 ≠ k) : dictSet (hd :: tl) k v = hd :: dictSet tl k v := by
  unfold dictSet
  have hhd : (decide (hd.1 = k)) = false := by simpa using h
  simp only [List.any_cons, hhd, Bool.false_or, List.map_cons, if_neg h]
  split <;> simp

/-- Looking up the key a Python dict assignment just wrote yields the
assigned value. -/
theorem getKey_dictSet (m : List (String × Json)) (k : String) (v : Json) :
    getKey (dictSet m k v) k = some v := by
  induction m with
  | nil => simp [dictSet, getKey, List.find?]
  | cons hd tl ih =>
    by_cases hh : hd.1 = k
    · have hany : ((hd :: tl).any fun kv => decide (kv.1 = k)) = true := by
        simp [List.any_cons, hh]
      simp [dictSet, hany, getKey, List.find?, hh]
    · rw [dictSet_cons hd tl k v hh]
      have hdec : (decide (hd.1 = k)) = false := by simpa using hh
      simp only [getKey, List.find?, hdec]
      exact ih

/-- The allocated id is recorded in `images_data` with the given payload. -/
theorem insertImageCore_images (d : Doc) (pos : Nat) (payload : String) :
    getKey (insertImageCore d pos payload).images (natStr d.image_counter)
      = some (.jstr payload) := by
  have h : (insertImageCore d pos payload).images
      = dictSet d.images (natStr d.image_counter) (.jstr payload) := by
    unfold insertImageCore
    rw [tkDelete_images]
    rfl
  rw [h, getKey_dictSet]

/-- The counter advances by one across an image insertion. -/
theorem insertImageCore_counter (d : Doc) (pos : Nat) (payload : String) :
    (insertImageCore d pos payload).image_counter = d.image_counter + 1 := by
  unfold insertImageCore
  rw [tkDelete_counter]
  rfl

/-- C1: the claim states that after a successful `insertImage`, the
literal marker `[IMAGE:<id>]` for the new id is present in the text
buffer.  The code inserts the marker and immediately deletes the very
span it inserted (both in `insert_image` and in `paste_from_clipboard`),
so the buffer is left exactly as it was and the marker is not persisted:
at the failing input (an empty document, any blob) the buffer afterwards
is empty and contains no marker.  This contradicts the code's own comment
that the marker "will be used when saving/loading the note". -/
theorem insert_image_leaves_no_marker :
    (∀ (d : Doc) (pos : Nat) (b : Blob), (insert_image d pos b).text = d.text) ∧
    (∀ (d : Doc) (pos : Nat) (b : Blob), (paste_image d pos b).text = d.text) ∧
    (insert_image emptyDoc 0 ⟨600, 400⟩).text = [] ∧
    containsSeq (markerChars (natStr 0)) (insert_image emptyDoc 0 ⟨600, 400⟩).text = false := by
  refine ⟨fun d pos b => insertImageCore_text d pos _,
          fun d pos b => insertImageCore_text d pos _, ?_, ?_⟩
  · rw [show insert_image emptyDoc 0 ⟨600, 400⟩ = insertImageCore emptyDoc 0 (blobB64 ⟨600, 400⟩) from rfl,
        insertImageCore_text]
    rfl
  · rw [show insert_image emptyDoc 0 ⟨600, 400⟩ = insertImageCore emptyDoc 0 (blobB64 ⟨600, 400⟩) from rfl,
        insertImageCore_text]
    rfl

/-- C3 counterexample: an image of width 600 inserted through the file
dialog stores the base64 of the original file bytes (width 600), not the
downscaled copy (width 500): the claim fails on the `insert_image` path. -/
theorem insert_image_stores_original_blob :
    getKey (insert_image emptyDoc 0 ⟨600, 400⟩).images (natStr 0)
      = some (.jstr (blobB64 ⟨600, 400⟩)) ∧
    resizeImg ⟨600, 400⟩ = ⟨500, 333⟩ ∧
    blobB64 ⟨600, 400⟩ = "W600H400" ∧
    blobB64 ⟨500, 333⟩ = "W500H333" ∧
    ((blobB64 ⟨600, 400⟩ == blobB64 (resizeImg ⟨600, 400⟩)) = false) := by
  refine ⟨insertImageCore_images emptyDoc 0 (blobB64 ⟨600, 400⟩), ?_, ?_, ?_, ?_⟩ <;> decide

/-- C3 amended: only the clipboard-paste path stores the downscaled copy;
the file-dialog path stores the original blob unresized (the display copy
alone is downscaled there).  The downscale itself bounds the width at 500
preserving the aspect ratio. -/
theorem stored_blob_resize_policy :
    (∀ (d : Doc) (pos : Nat) (b : Blob),
        getKey (paste_image d pos b).images (natStr d.image_counter)
          = some (.jstr (blobB64 (resizeImg b)))) ∧
    (∀ (d : Doc) (pos : Nat) (b : Blob),
        getKey (insert_image d pos b).images (natStr d.image_counter)
          = some (.jstr (blobB64 b))) ∧
    (∀ b : Blob, 500 < b.width →
        (resizeImg b).width = 500 ∧ (resizeImg b).height = b.height * 500 / b.width) := by
  refine ⟨fun d pos b => insertImageCore_images d pos _,
          fun d pos b => insertImageCore_images d pos _,
          fun b hb => ?_⟩
  unfold resizeImg
  rw [if_pos hb]
  exact ⟨rfl, rfl⟩

/-- C3 witness: the resize bound evaluated at a concrete 600-wide blob. -/
theorem stored_blob_resize_policy_witness :
    (resizeImg ⟨600, 400⟩).width = 500 ∧ (resizeImg ⟨600, 400⟩).height = 400 * 500 / 600 :=
  stored_blob_resize_policy.2.2 ⟨600, 400⟩ (by decide)

/-- C7: a save attempt with blank content or with a cancelled/empty title
returns before any store call: the store and the session's note id are
unchanged and no save is reported. -/
theorem save_note_validation_no_mutation :
    ∀ (fonts : List String) (store : List NoteRow) (now : Nat) (d : Doc)
      (cur : Option Nat) (title_input : Option String),
      stripIsEmpty ⟨d.text ++ ['\n']⟩ = true ∨ title_input = none ∨ title_input = some "" →
      save_note fonts store now d cur title_input = (store, cur, false) := by
  intro fonts store now d cur ti h
  rcases h with h | h | h
  · simp [save_note, h]
  · subst h
    cases hc : stripIsEmpty ⟨d.text ++ ['\n']⟩ <;> simp [save_note, hc]
  · subst h
    cases hc : stripIsEmpty ⟨d.text ++ ['\n']⟩ <;> simp [save_note, hc]

/-- C7 witness: an empty buffer (whose stored content is the widget's
bare newline) is rejected with the store untouched. -/
theorem save_note_validation_no_mutation_witness :
    save_note [] [] 0 emptyDoc none (some "T") = ([], none, false) :=
  save_note_validation_no_mutation [] [] 0 emptyDoc none (some "T") (Or.inl (by decide))

/-- C8: with no selection, `change_font_size` rewrites only the toggle
state and the persisted settings default, leaving the document (hence its
Size ranges) untouched; with a nonempty selection it leaves the settings
untouched and appends a Size range exactly over the selection bounds
(after clearing the combo sizes' tags there). -/
theorem change_font_size_selection_vs_default :
    ∀ (fmt : Fmt) (settings : Settings) (d : Doc) (n a b : Nat),
      change_font_size fmt settings d none n
        = ({ fmt with font_size := n }, { settings with font_size := n }, d) ∧
      (a < b →
        (change_font_size fmt settings d (some (a, b)) n).2.1 = settings ∧
        (change_font_size fmt settings d (some (a, b)) n).2.2.styles
          = (comboSizes.foldl (fun acc m => tagRemove acc (.size m) a b) d).styles
            ++ [⟨.size n, a, b⟩]) := by
  intro fmt settings d n a b
  refine ⟨rfl, fun hab => ⟨rfl, ?_⟩⟩
  show (tagAdd (comboSizes.foldl (fun acc m => tagRemove acc (.size m) a b) d)
      (.size n) a b).styles = _
  unfold tagAdd
  rw [if_pos hab]

/-- C8 witness: a three-character selection at a concrete instance. -/
theorem change_font_size_selection_vs_default_witness :
    (change_font_size ⟨false, false, false, 12, "Arial"⟩ ⟨12, "Arial"⟩
        ⟨"abc".toList, [], [], 0⟩ (some (0, 3)) 18).2.1 = ⟨12, "Arial"⟩ ∧
    (change_font_size ⟨false, false, false, 12, "Arial"⟩ ⟨12, "Arial"⟩
        ⟨"abc".toList, [], [], 0⟩ (some (0, 3)) 18).2.2.styles
      = (comboSizes.foldl (fun acc m => tagRemove acc (.size m) 0 3)
          ⟨"abc".toList, [], [], 0⟩).styles ++ [⟨.size 18, 0, 3⟩] :=
  (change_font_size_selection_vs_default ⟨false, false, false, 12, "Arial"⟩ ⟨12, "Arial"⟩
    ⟨"abc".toList, [], [], 0⟩ 18 0 3).2 (by decide)

/-- C9: an insert stamps the new row's `updated_at` with the current
time, an update stamps the rewritten row likewise, and the listing is the
rows ordered by `updated_at` descending (the comparison reads nothing but
`updated_at`). -/
theorem notes_listing_ordered_by_updated_at :
    ∀ (store : List NoteRow) (now : Nat) (title content : String)
      (i : List (String × Json)) (f : FmtData) (nid : Nat),
      save_note_to_db store now title content i f
        = store ++ [⟨nextRowId store, title, content, imagesStr i, fmtStr f, now⟩] ∧
      (∀ r ∈ update_note_in_db store now nid title content i f,
          r.id = nid → r.updated_at = now) ∧
      List.Sorted byUpdatedDesc (orderByUpdatedDesc store) ∧
      get_notes_from_db store = (orderByUpdatedDesc store).map fun r => (r.id, r.title) := by
  intro store now title content i f nid
  refine ⟨rfl, ?_, List.sorted_insertionSort byUpdatedDesc store, rfl⟩
  intro r hr hid
  unfold update_note_in_db at hr
  rcases List.mem_map.mp hr with ⟨r₀, _, hr₀⟩
  by_cases h₀ : r₀.id = nid
  · rw [← hr₀]
    simp [h₀]
  · rw [← hr₀] at hid ⊢
    simp only [if_neg h₀] at hid ⊢
    exact absurd hid h₀

/-- C9 witness: updating the sole row of a one-row store stamps it with
the new time. -/
theorem notes_listing_ordered_by_updated_at_witness :
    (⟨1, "t2", "c2", imagesStr [], fmtStr ⟨[], [], [], [], []⟩, 9⟩ : NoteRow).updated_at = 9 :=
  (notes_listing_ordered_by_updated_at [⟨1, "t", "c", "x", "y", 5⟩] 9 "t2" "c2" []
      ⟨[], [], [], [], []⟩ 1).2.1
    ⟨1, "t2", "c2", imagesStr [], fmtStr ⟨[], [], [], [], []⟩, 9⟩
    (List.mem_cons_self _ _) rfl

/-- C10: on the first save of an unsaved note the code re-reads the new
row's id with `last_insert_rowid()` on a freshly opened connection, which
yields 0 on a connection that has performed no insert; the row actually
inserted received id `nextRowId store ≥ 1`, so the session's
`current_note_id` does not equal the inserted row's id. -/
theorem first_save_records_wrong_id :
    ∀ (fonts : List String) (store : List NoteRow) (now : Nat) (d : Doc) (title : String),
      stripIsEmpty ⟨d.text ++ ['\n']⟩ = false → title ≠ "" →
      (save_note fonts store now d none (some title)).2.1 = some 0 ∧
      (save_note fonts store now d none (some title)).1
        = store ++ [⟨nextRowId store, title, ⟨d.text ++ ['\n']⟩, imagesStr d.images,
                     fmtStr (save_formatting_data fonts d), now⟩] ∧
      1 ≤ nextRowId store := by
  intro fonts store now d title hc ht
  unfold save_note
  simp only [hc, if_false, Bool.false_eq_true, if_neg ht]
  exact ⟨rfl, rfl, Nat.succ_le_succ (Nat.zero_le _)⟩

/-- C10 witness: first save of a one-character note into an empty store
records id 0 in the session while the inserted row has id 1. -/
theorem first_save_records_wrong_id_witness :
    (save_note [] [] 7 ⟨['x'], [], [], 0⟩ none (some "t")).2.1 = some 0 ∧
    1 ≤ nextRowId ([] : List NoteRow) :=
  ⟨(first_save_records_wrong_id [] [] 7 ⟨['x'], [], [], 0⟩ "t" (by decide) (by decide)).1,
   (first_save_records_wrong_id [] [] 7 ⟨['x'], [], [], 0⟩ "t" (by decide) (by decide)).2.2⟩

/-- Untagging does not touch the buffer. -/
theorem tagRemove_text (d : Doc) (k : Kind) (a b : Nat) : (tagRemove d k a b).text = d.text := rfl

/-- Untagging does not touch the images dictionary. -/
theorem tagRemove_images (d : Doc) (k : Kind) (a b : Nat) :
    (tagRemove d k a b).images = d.images := rfl

/-- Untagging does not touch the image counter. -/
theorem tagRemove_counter (d : Doc) (k : Kind) (a b : Nat) :
    (tagRemove d k a b).image_counter = d.image_counter := rfl

/-- The typing formatter only appends tag ranges. -/
theorem acf_styles (fmt : Fmt) (settings : Settings) (d : Doc) (a b : Nat) :
    (apply_current_formatting fmt settings d a b).styles = d.styles ++ acfRanges fmt settings a b := by
  unfold apply_current_formatting acfRanges tagAdd
  by_cases h1 : fmt.bold = true <;> by_cases h2 : fmt.italic = true <;>
    by_cases h3 : fmt.underline = true <;> by_cases h4 : fmt.font_size = settings.font_size <;>
    by_cases h5 : fmt.font_family = settings.font_family <;> by_cases hab : a < b <;>
    simp [h1, h2, h3, h4, h5, hab]

/-- The typing formatter does not touch the buffer. -/
theorem acf_text (fmt : Fmt) (settings : Settings) (d : Doc) (a b : Nat) :
    (apply_current_formatting fmt settings d a b).text = d.text := by
  unfold apply_current_formatting
  split_ifs <;> simp [tagAdd_text]

/-- The typing formatter does not touch the images dictionary. -/
theorem acf_images (fmt : Fmt) (settings : Settings) (d : Doc) (a b : Nat) :
    (apply_current_formatting fmt settings d a b).images = d.images := by
  unfold apply_current_formatting
  split_ifs <;> simp [tagAdd_images]

/-- The typing formatter does not touch the image counter. -/
theorem acf_counter (fmt : Fmt) (settings : Settings) (d : Doc) (a b : Nat) :
    (apply_current_formatting fmt settings d a b).image_counter = d.image_counter := by
  unfold apply_current_formatting
  split_ifs <;> simp [tagAdd_counter]

/-- The modification callback does not touch the images dictionary. -/
theorem otm_images (fmt : Fmt) (settings : Settings) (d : Doc) (cur : Nat) :
    (on_text_modified fmt settings d cur).images = d.images := by
  unfold on_text_modified
  dsimp only
  split
  · exact acf_images ..
  · rfl

/-- The modification callback does not touch the image counter. -/
theorem otm_counter (fmt : Fmt) (settings : Settings) (d : Doc) (cur : Nat) :
    (on_text_modified fmt settings d cur).image_counter = d.image_counter := by
  unfold on_text_modified
  dsimp only
  split
  · exact acf_counter ..
  · rfl

/-- Text insertion does not touch the images dictionary. -/
theorem insertTextOp_images (fmt : Fmt) (settings : Settings) (d : Doc) (p : Nat)
    (s : List Char) : (insertTextOp fmt settings d p s).images = d.images := by
  unfold insertTextOp
  split
  · rfl
  · rw [otm_images]
    rfl

/-- Text insertion does not touch the image counter. -/
theorem insertTextOp_counter (fmt : Fmt) (settings : Settings) (d : Doc) (p : Nat)
    (s : List Char) : (insertTextOp fmt settings d p s).image_counter = d.image_counter := by
  unfold insertTextOp
  split
  · rfl
  · rw [otm_counter]
    rfl

/-- Text deletion does not touch the images dictionary. -/
theorem deleteTextOp_images (fmt : Fmt) (settings : Settings) (d : Doc) (a b : Nat) :
    (deleteTextOp fmt settings d a b).images = d.images := by
  unfold deleteTextOp
  dsimp only
  split
  · rw [otm_images, tkDelete_images]
  · rfl

/-- Text deletion does not touch the image counter. -/
theorem deleteTextOp_counter (fmt : Fmt) (settings : Settings) (d : Doc) (a b : Nat) :
    (deleteTextOp fmt settings d a b).image_counter = d.image_counter := by
  unfold deleteTextOp
  dsimp only
  split
  · rw [otm_counter, tkDelete_counter]
  · rfl

/-- Bold toggling does not touch images or counter. -/
theorem toggle_bold_images_counter (fmt : Fmt) (d : Doc) (sel : Option (Nat × Nat)) (cur : Nat) :
    (toggle_bold fmt d sel cur).2.images = d.images ∧
    (toggle_bold fmt d sel cur).2.image_counter = d.image_counter := by
  unfold toggle_bold
  dsimp only
  split
  · exact ⟨tagAdd_images .., tagAdd_counter ..⟩
  · exact ⟨tagRemove_images .., tagRemove_counter ..⟩

/-- Italic toggling does not touch images or counter. -/
theorem toggle_italic_images_counter (fmt : Fmt) (d : Doc) (sel : Option (Nat × Nat)) (cur : Nat) :
    (toggle_italic fmt d sel cur).2.images = d.images ∧
    (toggle_italic fmt d sel cur).2.image_counter = d.image_counter := by
  unfold toggle_italic
  dsimp only
  split
  · exact ⟨tagAdd_images .., tagAdd_counter ..⟩
  · exact ⟨tagRemove_images .., tagRemove_counter ..⟩

/-- Underline toggling does not touch images or counter. -/
theorem toggle_underline_images_counter (fmt : Fmt) (d : Doc) (sel : Option (Nat × Nat))
    (cur : Nat) :
    (toggle_underline fmt d sel cur).2.images = d.images ∧
    (toggle_underline fmt d sel cur).2.image_counter = d.image_counter := by
  unfold toggle_underline
  dsimp only
  split
  · exact ⟨tagAdd_images .., tagAdd_counter ..⟩
  · exact ⟨tagRemove_images .., tagRemove_counter ..⟩

/-- Removing the combo sizes' tags does not touch images or counter. -/
theorem foldl_tagRemove_images_counter (l : List Nat) (a b : Nat) :
    ∀ d : Doc, (l.foldl (fun acc m => tagRemove acc (.size m) a b) d).images = d.images ∧
      (l.foldl (fun acc m => tagRemove acc (.size m) a b) d).image_counter = d.image_counter := by
  induction l with
  | nil => exact fun d => ⟨rfl, rfl⟩
  | cons hd tl ih =>
    intro d
    simp only [List.foldl_cons]
    exact (ih (tagRemove d (.size hd) a b))

/-- The size action does not touch images or counter. -/
theorem change_font_size_images_counter (fmt : Fmt) (settings : Settings) (d : Doc)
    (sel : Option (Nat × Nat)) (n : Nat) :
    (change_font_size fmt settings d sel n).2.2.images = d.images ∧
    (change_font_size fmt settings d sel n).2.2.image_counter = d.image_counter := by
  unfold change_font_size
  match sel with
  | none => exact ⟨rfl, rfl⟩
  | some (a, b) =>
    dsimp only
    rw [tagAdd_images, tagAdd_counter]
    exact foldl_tagRemove_images_counter comboSizes a b d

/-- Restoring range entries touches only the style list. -/
theorem applyPairs_pres (k : Kind) :
    ∀ (es : List Json) (d : Doc),
      (applyPairs k d es).1.text = d.text ∧ (applyPairs k d es).1.images = d.images ∧
      (applyPairs k d es).1.image_counter = d.image_counter := by
  intro es
  induction es with
  | nil => exact fun d => ⟨rfl, rfl, rfl⟩
  | cons e tl ih =>
    intro d
    unfold applyPairs
    match hp : pairOfJson e with
    | some p =>
      have := ih (tagAdd d k p.1 p.2)
      rw [tagAdd_text, tagAdd_images, tagAdd_counter] at this
      exact this
    | none => exact ⟨rfl, rfl, rfl⟩

/-- Restoring one boolean section touches only the style list. -/
theorem applyBoolSection_pres (kvs : List (String × Json)) (key : String) (k : Kind) (d : Doc) :
    (applyBoolSection kvs key k d).1.text = d.text ∧
    (applyBoolSection kvs key k d).1.images = d.images ∧
    (applyBoolSection kvs key k d).1.image_counter = d.image_counter := by
  unfold applyBoolSection
  match sectionArr (getKey kvs key) with
  | none => exact ⟨rfl, rfl, rfl⟩
  | some xs => exact applyPairs_pres k xs d

/-- Restoring the size groups touches only the style list. -/
theorem applySizeGroups_pres :
    ∀ (groups : List (String × Json)) (d : Doc),
      (applySizeGroups d groups).1.text = d.text ∧
      (applySizeGroups d groups).1.images = d.images ∧
      (applySizeGroups d groups).1.image_counter = d.image_counter := by
  intro groups
  induction groups with
  | nil => exact fun d => ⟨rfl, rfl, rfl⟩
  | cons g tl ih =>
    intro d
    obtain ⟨key, ranges⟩ := g
    cases ranges with
    | jarr xs =>
      unfold applySizeGroups
      dsimp only
      split
      · rcases hap : applyPairs (.size (digitsVal key.toList)) d xs with ⟨d', ok⟩
        have hp := applyPairs_pres (.size (digitsVal key.toList)) xs d
        rw [hap] at hp
        cases ok
        · exact hp
        · have := ih d'
          exact ⟨hp.1 ▸ this.1, hp.2.1 ▸ this.2.1, hp.2.2 ▸ this.2.2⟩
      · exact ⟨rfl, rfl, rfl⟩
    | jnull =>
      unfold applySizeGroups
      dsimp only
      split <;> exact ⟨rfl, rfl, rfl⟩
    | jbool b =>
      unfold applySizeGroups
      dsimp only
      split <;> exact ⟨rfl, rfl, rfl⟩
    | jnum n =>
      unfold applySizeGroups
      dsimp only
      split <;> exact ⟨rfl, rfl, rfl⟩
    | jstr s =>
      unfold applySizeGroups
      dsimp only
      split <;> exact ⟨rfl, rfl, rfl⟩
    | jobj kvs =>
      unfold applySizeGroups
      dsimp only
      split <;> exact ⟨rfl, rfl, rfl⟩

/-- Restoring the family groups touches only the style list. -/
theorem applyFamGroups_pres :
    ∀ (fams : List (String × Json)) (d : Doc),
      (applyFamGroups d fams).1.text = d.text ∧
      (applyFamGroups d fams).1.images = d.images ∧
      (applyFamGroups d fams).1.image_counter = d.image_counter := by
  intro fams
  induction fams with
  | nil => exact fun d => ⟨rfl, rfl, rfl⟩
  | cons g tl ih =>
    intro d
    obtain ⟨fam, ranges⟩ := g
    cases ranges with
    | jarr xs =>
      unfold applyFamGroups
      dsimp only
      rcases hap : applyPairs (.family fam) d xs with ⟨d', ok⟩
      have hp := applyPairs_pres (.family fam) xs d
      rw [hap] at hp
      cases ok
      · exact hp
      · have := ih d'
        exact ⟨hp.1 ▸ this.1, hp.2.1 ▸ this.2.1, hp.2.2 ▸ this.2.2⟩
    | jnull => exact ⟨rfl, rfl, rfl⟩
    | jbool b => exact ⟨rfl, rfl, rfl⟩
    | jnum n => exact ⟨rfl, rfl, rfl⟩
    | jstr s => exact ⟨rfl, rfl, rfl⟩
    | jobj kvs => exact ⟨rfl, rfl, rfl⟩

/-- Restoring a formatting value touches only the style list. -/
theorem applyFormattingJson_pres (d : Doc) (v : Json) :
    (applyFormattingJson d v).text = d.text ∧
    (applyFormattingJson d v).images = d.images ∧
    (applyFormattingJson d v).image_counter = d.image_counter := by
  cases v with
  | jnull => exact ⟨rfl, rfl, rfl⟩
  | jbool b => exact ⟨rfl, rfl, rfl⟩
  | jnum n => exact ⟨rfl, rfl, rfl⟩
  | jstr s => exact ⟨rfl, rfl, rfl⟩
  | jarr xs => exact ⟨rfl, rfl, rfl⟩
  | jobj kvs =>
    unfold applyFormattingJson
    dsimp only
    rcases h1 : applyBoolSection kvs "bold" .bold d with ⟨d₁, ok₁⟩
    have p1 := applyBoolSection_pres kvs "bold" .bold d
    rw [h1] at p1
    cases ok₁
    · exact p1
    · dsimp only
      rcases h2 : applyBoolSection kvs "italic" .italic d₁ with ⟨d₂, ok₂⟩
      have p2 := applyBoolSection_pres kvs "italic" .italic d₁
      rw [h2] at p2
      cases ok₂
      · exact ⟨p1.1 ▸ p2.1, p1.2.1 ▸ p2.2.1, p1.2.2 ▸ p2.2.2⟩
      · dsimp only
        rcases h3 : applyBoolSection kvs "underline" .underline d₂ with ⟨d₃, ok₃⟩
        have p3 := applyBoolSection_pres kvs "underline" .underline d₂
        rw [h3] at p3
        have acc3 : d₃.text = d.text ∧ d₃.images = d.images ∧
            d₃.image_counter = d.image_counter := by
          exact ⟨p1.1 ▸ p2.1 ▸ p3.1, p1.2.1 ▸ p2.2.1 ▸ p3.2.1, p1.2.2 ▸ p2.2.2 ▸ p3.2.2⟩
        cases ok₃
        · exact acc3
        · dsimp only
          cases hso : sectionObj (getKey kvs "font_size") with
          | none => exact acc3
          | some groups =>
            dsimp only
            rcases h4 : applySizeGroups d₃ groups with ⟨d₄, ok₄⟩
            have p4 := applySizeGroups_pres groups d₃
            rw [h4] at p4
            have acc4 : d₄.text = d.text ∧ d₄.images = d.images ∧
                d₄.image_counter = d.image_counter :=
              ⟨acc3.1 ▸ p4.1, acc3.2.1 ▸ p4.2.1, acc3.2.2 ▸ p4.2.2⟩
            cases ok₄
            · exact acc4
            · dsimp only
              cases hfo : sectionObj (getKey kvs "font_family") with
              | none => exact acc4
              | some fams =>
                dsimp only
                have p5 := applyFamGroups_pres fams d₄
                exact ⟨acc4.1 ▸ p5.1, acc4.2.1 ▸ p5.2.1, acc4.2.2 ▸ p5.2.2⟩

/-- A fold of `max` never goes below its seed. -/
theorem le_foldl_max_init (l : List Nat) : ∀ a, a ≤ l.foldl max a := by
  induction l with
  | nil => exact fun a => Nat.le_refl a
  | cons hd tl ih => exact fun a => Nat.le_trans (Nat.le_max_left a hd) (ih (max a hd))

/-- A fold of `max` dominates every member. -/
theorem le_foldl_max (l : List Nat) : ∀ a x, x ∈ l → x ≤ l.foldl max a := by
  induction l with
  | nil => intro a x hx; simp at hx
  | cons hd tl ih =>
    intro a x hx
    rcases List.mem_cons.mp hx with rfl | hmem
    · exact Nat.le_trans (Nat.le_max_right a x) (le_foldl_max_init tl (max a x))
    · exact ih (max a hd) x hmem

/-- The reindexed maximum dominates every numeric key. -/
theorem le_maxDigitKey (kvs : List (String × Json)) (kv : String × Json) (hm : kv ∈ kvs)
    (hd : isDigitStr kv.1 = true) : digitsVal kv.1.toList ≤ maxDigitKey kvs := by
  unfold maxDigitKey
  apply le_foldl_max
  exact List.mem_filterMap.mpr ⟨kv, hm, by rw [if_pos hd]⟩

/-- Membership after a Python dict assignment. -/
theorem mem_dictSet (m : List (String × Json)) (k : String) (v : Json) :
    ∀ kv ∈ dictSet m k v, kv ∈ m ∨ kv.1 = k := by
  unfold dictSet
  split
  · intro kv hkv
    rcases List.mem_map.mp hkv with ⟨kv₀, h₀, hkv₀⟩
    by_cases h : kv₀.1 = k
    · right
      rw [← hkv₀, if_pos h]
    · left
      rw [← hkv₀, if_neg h]
      exact h₀
  · intro kv hkv
    rcases List.mem_append.mp hkv with h | h
    · exact Or.inl h
    · right
      rw [List.mem_singleton.mp h]

/-- Allocating an image id preserves the freshness invariant. -/
theorem imgIdInv_insertImageCore (d : Doc) (pos : Nat) (payload : String) (h : imgIdInv d) :
    imgIdInv (insertImageCore d pos payload) := by
  have hi : (insertImageCore d pos payload).images
      = dictSet d.images (natStr d.image_counter) (.jstr payload) := by
    unfold insertImageCore
    rw [tkDelete_images]
    rfl
  intro kv hkv hdig
  rw [insertImageCore_counter]
  rw [hi] at hkv
  rcases mem_dictSet d.images (natStr d.image_counter) (.jstr payload) kv hkv with hm | hk
  · exact Nat.lt_trans (h kv hm hdig) (Nat.lt_succ_self _)
  · rw [hk, digitsVal_natStr]
    exact Nat.lt_succ_self _

/-- Restoring a formatting value preserves the freshness invariant. -/
theorem imgIdInv_applyFormattingJson (d : Doc) (v : Json) (h : imgIdInv d) :
    imgIdInv (applyFormattingJson d v) := by
  intro kv hkv hdig
  have hp := applyFormattingJson_pres d v
  rw [hp.2.1] at hkv
  rw [hp.2.2]
  exact h kv hkv hdig

/-- A freshly loaded document satisfies the freshness invariant:
the counter is reindexed strictly above every numeric key. -/
theorem imgIdInv_openNote (record : NoteRecord) : imgIdInv (openNote record) := by
  have base : ∀ d1 : Doc, imgIdInv d1 →
      imgIdInv (if record.formatting = "" ∨ record.formatting = emptyObjStr then d1
        else
          match parseJson record.formatting with
          | some v => applyFormattingJson d1 v
          | none => d1) := by
    intro d1 h
    split
    · exact h
    · split
      · exact imgIdInv_applyFormattingJson _ _ h
      · exact h
  unfold openNote
  dsimp only
  apply base
  split
  · intro kv hkv hdig
    simp at hkv
  · split
    · rename_i kvs _
      split
      · rename_i hemp
        intro kv hkv hdig
        rw [List.isEmpty_iff] at hemp
        subst hemp
        simp at hkv
      · intro kv hkv hdig
        exact Nat.lt_succ_of_le (le_maxDigitKey kvs kv hkv hdig)
    · intro kv hkv hdig
      simp at hkv
    · intro kv hkv hdig
      simp at hkv

/-- The counter a load computes, as a function of the decoded keys. -/
theorem openNote_counter_eq (record : NoteRecord) (kvs : List (String × Json))
    (h2 : parseJson record.images = some (.jobj kvs))
    (hne : record.images ≠ "") (hnb : record.images ≠ emptyObjStr) :
    (openNote record).image_counter = if kvs.isEmpty then 0 else maxDigitKey kvs + 1 := by
  have base : ∀ d1 : Doc,
      (if record.formatting = "" ∨ record.formatting = emptyObjStr then d1
        else
          match parseJson record.formatting with
          | some v => applyFormattingJson d1 v
          | none => d1).image_counter = d1.image_counter := by
    intro d1
    split
    · rfl
    · split
      · exact (applyFormattingJson_pres _ _).2.2
      · rfl
  unfold openNote
  dsimp only
  rw [base]
  rw [if_neg (by rw [not_or]; exact ⟨hne, hnb⟩), h2]
  dsimp only
  split
  · rename_i hemp
    rw [List.isEmpty_iff] at hemp
    subst hemp
    rfl
  · rfl

/-- C5: image ids are never reused.  On every reachable document the
counter strictly dominates every numeric id in `images_data` (so the next
allocated id collides with none of them); loading reindexes the counter
to one past the largest numeric key (zero when no image entry exists, the
claim's `1 + max(ids, default -1)`); deleting text never changes the
counter; and in the concrete scenario, after ids "0" and "1" and a
delete-all, the next image receives id "2". -/
theorem image_id_counter_monotone :
    (∀ d : Doc, ReachableDoc d → imgIdInv d) ∧
    (∀ d : Doc, ReachableDoc d → ∀ kv ∈ d.images, isDigitStr kv.1 = true →
        kv.1 ≠ natStr d.image_counter) ∧
    (∀ (record : NoteRecord) (kvs : List (String × Json)),
        parseJson record.images = some (.jobj kvs) →
        record.images ≠ "" → record.images ≠ emptyObjStr →
        (openNote record).image_counter = if kvs.isEmpty then 0 else maxDigitKey kvs + 1) ∧
    (∀ (fmt : Fmt) (settings : Settings) (d : Doc) (a b : Nat),
        (deleteTextOp fmt settings d a b).image_counter = d.image_counter) ∧
    ((insert_image (deleteTextOp ⟨false, false, false, 12, "Arial"⟩ ⟨12, "Arial"⟩
        (insert_image (insert_image emptyDoc 0 ⟨2, 2⟩) 0 ⟨3, 3⟩) 0
        (insert_image (insert_image emptyDoc 0 ⟨2, 2⟩) 0 ⟨3, 3⟩).text.length) 0 ⟨4, 4⟩).images
      = [("0", .jstr "W2H2"), ("1", .jstr "W3H3"), ("2", .jstr "W4H4")] ∧
     (insert_image (deleteTextOp ⟨false, false, false, 12, "Arial"⟩ ⟨12, "Arial"⟩
        (insert_image (insert_image emptyDoc 0 ⟨2, 2⟩) 0 ⟨3, 3⟩) 0
        (insert_image (insert_image emptyDoc 0 ⟨2, 2⟩) 0 ⟨3, 3⟩).text.length) 0
        ⟨4, 4⟩).image_counter = 3) := by
  have inv : ∀ d : Doc, ReachableDoc d → imgIdInv d := by
    intro d hd
    induction hd with
    | new => intro kv hkv hdig; simp [emptyDoc] at hkv
    | load record => exact imgIdInv_openNote record
    | insertText fmt settings p s hprev ih =>
      intro kv hkv hdig
      rw [insertTextOp_images] at hkv
      rw [insertTextOp_counter]
      exact ih kv hkv hdig
    | deleteText fmt settings a b hprev ih =>
      intro kv hkv hdig
      rw [deleteTextOp_images] at hkv
      rw [deleteTextOp_counter]
      exact ih kv hkv hdig
    | tglBold fmt sel cur hprev ih =>
      intro kv hkv hdig
      rw [(toggle_bold_images_counter fmt _ sel cur).1] at hkv
      rw [(toggle_bold_images_counter fmt _ sel cur).2]
      exact ih kv hkv hdig
    | tglItalic fmt sel cur hprev ih =>
      intro kv hkv hdig
      rw [(toggle_italic_images_counter fmt _ sel cur).1] at hkv
      rw [(toggle_italic_images_counter fmt _ sel cur).2]
      exact ih kv hkv hdig
    | tglUnderline fmt sel cur hprev ih =>
      intro kv hkv hdig
      rw [(toggle_underline_images_counter fmt _ sel cur).1] at hkv
      rw [(toggle_underline_images_counter fmt _ sel cur).2]
      exact ih kv hkv hdig
    | fontSize fmt settings sel n hprev ih =>
      intro kv hkv hdig
      rw [(change_font_size_images_counter fmt settings _ sel n).1] at hkv
      rw [(change_font_size_images_counter fmt settings _ sel n).2]
      exact ih kv hkv hdig
    | image pos b hprev ih => exact imgIdInv_insertImageCore _ pos _ ih
    | paste pos b hprev ih => exact imgIdInv_insertImageCore _ pos _ ih
  refine ⟨inv, ?_, fun record kvs h2 hne hnb => openNote_counter_eq record kvs h2 hne hnb,
          fun fmt settings d a b => deleteTextOp_counter fmt settings d a b, by rfl, by rfl⟩
  intro d hd kv hkv hdig heq
  have hlt := inv d hd kv hkv hdig
  rw [heq, digitsVal_natStr] at hlt
  exact Nat.lt_irrefl _ hlt

/-- C5 witness: loading a row whose images column holds ids "0" and "3"
reindexes the counter via the decoded keys (to 4). -/
theorem image_id_counter_monotone_witness :
    (openNote ⟨"t", "hello", "\x7b\"0\": \"x\", \"3\": \"y\"\x7d", "\x7b\x7d"⟩).image_counter
      = if ([("0", Json.jstr "x"), ("3", Json.jstr "y")] : List (String × Json)).isEmpty then 0
        else maxDigitKey [("0", Json.jstr "x"), ("3", Json.jstr "y")] + 1 :=
  image_id_counter_monotone.2.2.1 ⟨"t", "hello", "\x7b\"0\": \"x\", \"3\": \"y\"\x7d", "\x7b\x7d"⟩
    [("0", Json.jstr "x"), ("3", Json.jstr "y")] (by rfl) (by decide) (by decide)

/-- Tag coverage over concatenated range lists. -/
theorem kindActiveAt_append (l₁ l₂ : List StyleRange) (k : Kind) (o : Nat) :
    kindActiveAt (l₁ ++ l₂) k o = (kindActiveAt l₁ k o || kindActiveAt l₂ k o) := by
  simp [kindActiveAt, List.any_append]

/-- Tag coverage from one covering member. -/
theorem kindActiveAt_of_mem (l : List StyleRange) (r : StyleRange) (hm : r ∈ l) (k : Kind)
    (o : Nat) (hk : r.kind = k) (hc : coversAt r o = true) : kindActiveAt l k o = true := by
  unfold kindActiveAt
  rw [List.any_eq_true]
  refine ⟨r, hm, ?_⟩
  simp [hk, hc]

/-- Every kind the typing formatter is asked to apply covers the span it
was given. -/
theorem acfRanges_active (fmt : Fmt) (settings : Settings) (a b : Nat) (k : Kind)
    (hab : a < b)
    (hk : (k = .bold ∧ fmt.bold = true) ∨ (k = .italic ∧ fmt.italic = true) ∨
      (k = .underline ∧ fmt.underline = true) ∨
      (k = .size fmt.font_size ∧ fmt.font_size ≠ settings.font_size) ∨
      (k = .family fmt.font_family ∧ fmt.font_family ≠ settings.font_family)) :
    ∀ o, a ≤ o → o < b → kindActiveAt (acfRanges fmt settings a b) k o = true := by
  intro o h1 h2
  rcases hk with ⟨rfl, hb⟩ | ⟨rfl, hb⟩ | ⟨rfl, hb⟩ | ⟨rfl, hb⟩ | ⟨rfl, hb⟩ <;>
    refine kindActiveAt_of_mem _ ⟨_, a, b⟩ ?_ _ _ rfl (by simp [coversAt]; omega) <;>
    simp [acfRanges, hb, hab]

/-- C4 counterexample: with only bold toggled on, inserting the
two-character string "hi" at offset 0 in one modification event leaves
offset 0 unbolded — the formatter tags only the last inserted character,
not the whole span. -/
theorem multichar_insert_bold_gap :
    kindActiveAt (insertTextOp ⟨true, false, false, 12, "Arial"⟩ ⟨12, "Arial"⟩ emptyDoc 0
      ['h', 'i']).styles .bold 0 = false ∧
    kindActiveAt (insertTextOp ⟨true, false, false, 12, "Arial"⟩ ⟨12, "Arial"⟩ emptyDoc 0
      ['h', 'i']).styles .bold 1 = true := ⟨rfl, rfl⟩

/-- C4 amended: after any nonempty insertion the formatter applies every
toggled-on kind over the final character `[insertedEnd - 1, insertedEnd)`
of the inserted span (the whole span exactly when one character was
inserted, which is how typing arrives); typing "h" then "i" with bold on
yields Bold coverage of exactly `[0, 2)`, and a subsequent "!" with bold
off leaves that coverage unchanged. -/
theorem typing_mode_applies_to_last_char :
    (∀ (fmt : Fmt) (settings : Settings) (d : Doc) (p : Nat) (s : List Char) (k : Kind),
      s ≠ [] → p ≤ d.text.length →
      ((k = .bold ∧ fmt.bold = true) ∨ (k = .italic ∧ fmt.italic = true) ∨
        (k = .underline ∧ fmt.underline = true) ∨
        (k = .size fmt.font_size ∧ fmt.font_size ≠ settings.font_size) ∨
        (k = .family fmt.font_family ∧ fmt.font_family ≠ settings.font_family)) →
      kindActiveAt (insertTextOp fmt settings d p s).styles k (p + s.length - 1) = true) ∧
    ((insertTextOp ⟨false, false, false, 12, "Arial"⟩ ⟨12, "Arial"⟩
        (insertTextOp ⟨true, false, false, 12, "Arial"⟩ ⟨12, "Arial"⟩
          (insertTextOp ⟨true, false, false, 12, "Arial"⟩ ⟨12, "Arial"⟩ emptyDoc 0 ['h'])
          1 ['i']) 2 ['!']).styles = [⟨.bold, 0, 1⟩, ⟨.bold, 1, 2⟩] ∧
      ∀ o : Nat,
        kindActiveAt [⟨.bold, 0, 1⟩, ⟨.bold, 1, 2⟩] .bold o = true ↔ o < 2) := by
  refine ⟨?_, rfl, ?_⟩
  · intro fmt settings d p s k hs hp hk
    have hse : s.isEmpty = false := by
      cases s
      · exact absurd rfl hs
      · rfl
    have hsl : 1 ≤ s.length := List.length_pos.mpr hs
    unfold insertTextOp
    simp only [hse, Bool.false_eq_true, if_false]
    rw [Nat.min_eq_left hp]
    unfold on_text_modified
    dsimp only
    rw [if_pos (show p + s.length - 1 < p + s.length by omega)]
    rw [acf_styles]
    rw [kindActiveAt_append]
    rw [acfRanges_active fmt settings (p + s.length - 1) (p + s.length) k (by omega) hk
      (p + s.length - 1) (by omega) (by omega)]
    simp
  · intro o
    constructor
    · intro h
      simp only [kindActiveAt, List.any_cons, List.any_nil, Bool.or_false, Bool.or_eq_true,
        Bool.and_eq_true, beq_iff_eq, coversAt, decide_eq_true_eq] at h
      omega
    · intro h
      by_cases h1 : o < 1
      · apply kindActiveAt_of_mem _ ⟨.bold, 0, 1⟩ (by simp) _ _ rfl
        simp only [coversAt, Bool.and_eq_true, decide_eq_true_eq]
        omega
      · apply kindActiveAt_of_mem _ ⟨.bold, 1, 2⟩ (by simp) _ _ rfl
        simp only [coversAt, Bool.and_eq_true, decide_eq_true_eq]
        omega

/-- C4 witness: a single bold keystroke at offset 0 is tagged over its
whole one-character span. -/
theorem typing_mode_applies_to_last_char_witness :
    kindActiveAt (insertTextOp ⟨true, false, false, 12, "Arial"⟩ ⟨12, "Arial"⟩ emptyDoc 0
      ['h']).styles .bold 0 = true :=
  typing_mode_applies_to_last_char.1 ⟨true, false, false, 12, "Arial"⟩ ⟨12, "Arial"⟩ emptyDoc 0
    ['h'] .bold (by decide) (by decide) (Or.inl ⟨rfl, rfl⟩)

/-- C6 counterexample: a row whose formatting is valid JSON of the wrong
documented shape (`"italic": 7`) still loads, but with a NON-empty style
table: the well-formed `bold` entries were applied before the malformed
`italic` section raised, so the claim's "empty style table" fails for
this row. -/
theorem wrong_shape_formatting_applies_prefix :
    (openNote ⟨"t", "abc", emptyObjStr, "\x7b\"bold\": [[0, 2]], \"italic\": 7\x7d"⟩).styles
      = [⟨.bold, 0, 2⟩] ∧
    (openNote ⟨"t", "abc", emptyObjStr, "\x7b\"bold\": [[0, 2]], \"italic\": 7\x7d"⟩).text
      = "abc".toList := ⟨rfl, rfl⟩

/-- C6 amended: a stored row whose formatting field does not parse as
JSON at all (for example the literal text "not-json") loads with the text
buffer intact and an empty style table, and no failure escapes the
loader; rows holding valid JSON of the wrong shape also load with the
text intact, but may keep the well-formed leading entries applied before
the first malformed one. -/
theorem corrupt_formatting_degrades_to_plain_text :
    ∀ record : NoteRecord,
      (record.images = "" ∨ record.images = emptyObjStr) →
      parseJson record.formatting = none →
      (openNote record).text = record.content.toList ∧
      (openNote record).styles = [] ∧
      (openNote record).images = [] ∧
      (openNote record).image_counter = 0 := by
  intro record himg hfmt
  unfold openNote
  dsimp only
  rw [if_pos himg]
  split
  · exact ⟨rfl, rfl, rfl, rfl⟩
  · rw [hfmt]
    exact ⟨rfl, rfl, rfl, rfl⟩

/-- C6 witness: the spec's own example row, `formatting = "not-json"`. -/
theorem corrupt_formatting_degrades_to_plain_text_witness :
    (openNote ⟨"t", "hello", emptyObjStr, "not-json"⟩).text = "hello".toList ∧
    (openNote ⟨"t", "hello", emptyObjStr, "not-json"⟩).styles = [] ∧
    (openNote ⟨"t", "hello", emptyObjStr, "not-json"⟩).images = [] ∧
    (openNote ⟨"t", "hello", emptyObjStr, "not-json"⟩).image_counter = 0 :=
  corrupt_formatting_degrades_to_plain_text ⟨"t", "hello", emptyObjStr, "not-json"⟩
    (Or.inr rfl) (by rfl)

/-- Whitespace skipping stops at a non-whitespace head. -/
theorem skipWs_cons_neg (c : Char) (l : List Char) (h : isWsCh c = false) :
    skipWs (c :: l) = c :: l := by
  simp [skipWs, List.dropWhile_cons, h]

/-- Whitespace skipping eats a whitespace head. -/
theorem skipWs_cons_pos (c : Char) (l : List Char) (h : isWsCh c = true) :
    skipWs (c :: l) = skipWs l := by
  simp [skipWs, List.dropWhile_cons, h]

/-- Splitting `takeWhile`/`dropWhile` over a run that satisfies the
predicate followed by a stopper. -/
theorem takeDropWhile_all_append (p : Char → Bool) :
    ∀ (l₁ l₂ : List Char), (∀ c ∈ l₁, p c = true) →
      (∀ c, l₂.head? = some c → p c = false) →
      (l₁ ++ l₂).takeWhile p = l₁ ∧ (l₁ ++ l₂).dropWhile p = l₂ := by
  intro l₁
  induction l₁ with
  | nil =>
    intro l₂ h₁ h₂
    cases l₂ with
    | nil => exact ⟨rfl, rfl⟩
    | cons c tl =>
      have := h₂ c rfl
      simp [List.takeWhile_cons, List.dropWhile_cons, this]
  | cons c tl ih =>
    intro l₂ h₁ h₂
    have hc : p c = true := h₁ c (List.mem_cons_self ..)
    have := ih l₂ (fun x hx => h₁ x (List.mem_cons_of_mem c hx)) h₂
    simp [List.takeWhile_cons, List.dropWhile_cons, hc, this.1, this.2]

/-- A digit character is none of the parser's structural characters and
is not whitespace. -/
theorem digit_char_facts (c : Char) (h : isDigitCh c = true) :
    isWsCh c = false ∧ c ≠ '"' ∧ c ≠ '[' ∧ c ≠ lbraceC ∧ c ≠ 't' ∧ c ≠ 'f' ∧ c ≠ 'n' ∧
    c ≠ ']' ∧ c ≠ ',' ∧ c ≠ rbraceC ∧ c ≠ ':' := by
  simp only [isDigitCh, Bool.and_eq_true, decide_eq_true_eq] at h
  refine ⟨?_, ?_, ?_, ?_, ?_, ?_, ?_, ?_, ?_, ?_, ?_⟩
  · cases hws : isWsCh c with
    | false => rfl
    | true =>
      simp only [isWsCh, Bool.or_eq_true, beq_iff_eq] at hws
      rcases hws with ((hc | hc) | hc) | hc <;> (subst hc; revert h; decide)
  all_goals (intro hc; subst hc; revert h; decide)

/-- One-step unfolding of the value reader. -/
theorem pVal_eqn (fuel : Nat) (cs : List Char) :
    pVal (fuel + 1) cs =
      match skipWs cs with
      | [] => none
      | c :: rest =>
        if c = '"' then (readStrBody rest).map (fun p => (Json.jstr p.1, p.2))
        else if c = '[' then
          (if (skipWs rest).head? = some ']' then some (Json.jarr [], (skipWs rest).tail)
           else (pElems fuel (skipWs rest)).map (fun p => (Json.jarr p.1, p.2)))
        else if c = lbraceC then
          (if (skipWs rest).head? = some rbraceC then some (Json.jobj [], (skipWs rest).tail)
           else (pFields fuel (skipWs rest)).map (fun p => (Json.jobj p.1, p.2)))
        else if c = 't' then
          (if rest.take 3 = "rue".toList then some (Json.jbool true, rest.drop 3) else none)
        else if c = 'f' then
          (if rest.take 4 = "alse".toList then some (Json.jbool false, rest.drop 4) else none)
        else if c = 'n' then
          (if rest.take 3 = "ull".toList then some (Json.jnull, rest.drop 3) else none)
        else if isDigitCh c then
          some (Json.jnum (digitsVal ((c :: rest).takeWhile isDigitCh)),
            (c :: rest).dropWhile isDigitCh)
        else none := rfl

/-- One-step unfolding of the elements reader. -/
theorem pElems_eqn (fuel : Nat) (cs : List Char) :
    pElems (fuel + 1) cs =
      match pVal fuel cs with
      | none => none
      | some (v, r) =>
        if (skipWs r).head? = some ',' then
          (pElems fuel (skipWs r).tail).map (fun p => (v :: p.1, p.2))
        else if (skipWs r).head? = some ']' then some ([v], (skipWs r).tail)
        else none := rfl

/-- One-step unfolding of the fields reader. -/
theorem pFields_eqn (fuel : Nat) (cs : List Char) :
    pFields (fuel + 1) cs =
      match skipWs cs with
      | '"' :: r =>
        match readStrBody r with
        | none => none
        | some (k, r₂) =>
          if (skipWs r₂).head? = some ':' then
            match pVal fuel (skipWs r₂).tail with
            | none => none
            | some (v, r₄) =>
              if (skipWs r₄).head? = some ',' then
                (pFields fuel (skipWs r₄).tail).map (fun p => ((k, v) :: p.1, p.2))
              else if (skipWs r₄).head? = some rbraceC then some ([(k, v)], (skipWs r₄).tail)
              else none
          else none
      | _ => none := rfl

/-- Reading a number: the parser consumes exactly the emitted numeral
when the continuation does not begin with a digit. -/
theorem parse_num (fuel n : Nat) (rest : List Char)
    (hrest : ∀ c, rest.head? = some c → isDigitCh c = false) :
    pVal (fuel + 1) (natChars n ++ rest) = some (.jnum n, rest) := by
  obtain ⟨c₀, l₀, hn⟩ := List.exists_cons_of_ne_nil (natChars_ne_nil n)
  have hc₀ : isDigitCh c₀ = true := natChars_all_digits n c₀ (by rw [hn]; exact List.mem_cons_self ..)
  obtain ⟨hws, hq, hlb, hbr, ht, hf, hnn, _, _, _, _⟩ := digit_char_facts c₀ hc₀
  have hsplit := takeDropWhile_all_append isDigitCh (natChars n) rest
    (natChars_all_digits n) hrest
  show (match skipWs (natChars n ++ rest) with
    | [] => none
    | c :: r => _) = _
  rw [hn, List.cons_append, skipWs_cons_neg _ _ hws]
  dsimp only
  rw [if_neg hq, if_neg hlb, if_neg hbr, if_neg ht, if_neg hf, if_neg hnn,
      if_pos hc₀]
  rw [show c₀ :: (l₀ ++ rest) = natChars n ++ rest by rw [hn]; rfl]
  rw [hsplit.1, hsplit.2, digitsVal_natChars]

/-- Rebuilding a string from its character list. -/
theorem string_mk_toList (s : String) : (⟨s.toList⟩ : String) = s := rfl

/-- Reading a string literal: the parser consumes exactly the emitted
quoted text of a plain string. -/
theorem parse_str (fuel : Nat) (s : String) (rest : List Char) (hp : plainStr s = true) :
    pVal (fuel + 1) (strChars s ++ rest) = some (.jstr s, rest) := by
  have hnq : ∀ c ∈ s.toList, (c ≠ '"' : Bool) = true := by
    intro c hc
    simp only [plainStr, List.all_eq_true] at hp
    have := hp c hc
    simp only [Bool.and_eq_true, decide_eq_true_eq] at this
    simp [this.1]
  have hsplit := takeDropWhile_all_append (fun c => c ≠ '"') s.toList ('"' :: rest) hnq
    (fun c hc => by
      simp only [List.head?_cons, Option.some.injEq] at hc
      subst hc
      simp)
  rw [pVal_eqn]
  rw [show strChars s ++ rest = '"' :: (s.toList ++ ('"' :: rest)) by
    simp [strChars]]
  rw [skipWs_cons_neg _ _ (by decide)]
  dsimp only
  rw [if_pos rfl]
  unfold readStrBody
  rw [hsplit.1, hsplit.2]
  rfl

/-- Unfolding of the value reader for any positive fuel. -/
theorem pVal_eqn_pos (fuel : Nat) (h : 1 ≤ fuel) (cs : List Char) :
    pVal fuel cs =
      match skipWs cs with
      | [] => none
      | c :: rest =>
        if c = '"' then (readStrBody rest).map (fun p => (Json.jstr p.1, p.2))
        else if c = '[' then
          (if (skipWs rest).head? = some ']' then some (Json.jarr [], (skipWs rest).tail)
           else (pElems (fuel - 1) (skipWs rest)).map (fun p => (Json.jarr p.1, p.2)))
        else if c = lbraceC then
          (if (skipWs rest).head? = some rbraceC then some (Json.jobj [], (skipWs rest).tail)
           else (pFields (fuel - 1) (skipWs rest)).map (fun p => (Json.jobj p.1, p.2)))
        else if c = 't' then
          (if rest.take 3 = "rue".toList then some (Json.jbool true, rest.drop 3) else none)
        else if c = 'f' then
          (if rest.take 4 = "alse".toList then some (Json.jbool false, rest.drop 4) else none)
        else if c = 'n' then
          (if rest.take 3 = "ull".toList then some (Json.jnull, rest.drop 3) else none)
        else if isDigitCh c then
          some (Json.jnum (digitsVal ((c :: rest).takeWhile isDigitCh)),
            (c :: rest).dropWhile isDigitCh)
        else none := by
  obtain ⟨g, rfl⟩ : ∃ g, fuel = g + 1 := ⟨fuel - 1, by omega⟩
  simp only [Nat.add_sub_cancel]
  exact pVal_eqn g cs

/-- Unfolding of the elements reader for any positive fuel. -/
theorem pElems_eqn_pos (fuel : Nat) (h : 1 ≤ fuel) (cs : List Char) :
    pElems fuel cs =
      match pVal (fuel - 1) cs with
      | none => none
      | some (v, r) =>
        if (skipWs r).head? = some ',' then
          (pElems (fuel - 1) (skipWs r).tail).map (fun p => (v :: p.1, p.2))
        else if (skipWs r).head? = some ']' then some ([v], (skipWs r).tail)
        else none := by
  obtain ⟨g, rfl⟩ : ∃ g, fuel = g + 1 := ⟨fuel - 1, by omega⟩
  simp only [Nat.add_sub_cancel]
  exact pElems_eqn g cs

/-- Unfolding of the fields reader for any positive fuel. -/
theorem pFields_eqn_pos (fuel : Nat) (h : 1 ≤ fuel) (cs : List Char) :
    pFields fuel cs =
      match skipWs cs with
      | '"' :: r =>
        match readStrBody r with
        | none => none
        | some (k, r₂) =>
          if (skipWs r₂).head? = some ':' then
            match pVal (fuel - 1) (skipWs r₂).tail with
            | none => none
            | some (v, r₄) =>
              if (skipWs r₄).head? = some ',' then
                (pFields (fuel - 1) (skipWs r₄).tail).map (fun p => ((k, v) :: p.1, p.2))
              else if (skipWs r₄).head? = some rbraceC then some ([(k, v)], (skipWs r₄).tail)
              else none
          else none
      | _ => none := by
  obtain ⟨g, rfl⟩ : ∃ g, fuel = g + 1 := ⟨fuel - 1, by omega⟩
  simp only [Nat.add_sub_cancel]
  exact pFields_eqn g cs

/-- Number reading at any positive fuel. -/
theorem parse_num_pos (fuel n : Nat) (rest : List Char) (h : 1 ≤ fuel)
    (hrest : ∀ c, rest.head? = some c → isDigitCh c = false) :
    pVal fuel (natChars n ++ rest) = some (.jnum n, rest) := by
  obtain ⟨g, rfl⟩ : ∃ g, fuel = g + 1 := ⟨fuel - 1, by omega⟩
  exact parse_num g n rest hrest

/-- String reading at any positive fuel. -/
theorem parse_str_pos (fuel : Nat) (s : String) (rest : List Char) (h : 1 ≤ fuel)
    (hp : plainStr s = true) :
    pVal fuel (strChars s ++ rest) = some (.jstr s, rest) := by
  obtain ⟨g, rfl⟩ : ∃ g, fuel = g + 1 := ⟨fuel - 1, by omega⟩
  exact parse_str g s rest hp

/-- The reader ignores a leading whitespace character. -/
theorem pVal_ws (fuel : Nat) (c : Char) (cs : List Char) (hc : isWsCh c = true) :
    pVal fuel (c :: cs) = pVal fuel cs := by
  cases fuel with
  | zero => rfl
  | succ g => rw [pVal_eqn, pVal_eqn, skipWs_cons_pos c cs hc]

/-- The elements reader ignores a leading whitespace character. -/
theorem pElems_ws (fuel : Nat) (c : Char) (cs : List Char) (hc : isWsCh c = true) :
    pElems fuel (c :: cs) = pElems fuel cs := by
  cases fuel with
  | zero => rfl
  | succ g => rw [pElems_eqn, pElems_eqn, pVal_ws g c cs hc]

/-- The fields reader ignores a leading whitespace character. -/
theorem pFields_ws (fuel : Nat) (c : Char) (cs : List Char) (hc : isWsCh c = true) :
    pFields fuel (c :: cs) = pFields fuel cs := by
  cases fuel with
  | zero => rfl
  | succ g => rw [pFields_eqn, pFields_eqn, skipWs_cons_pos c cs hc]

/-- Reading back one emitted `[start, end]` pair. -/
theorem parse_pair (fuel a b : Nat) (rest : List Char) (hf : 4 ≤ fuel) :
    pVal fuel (dumpJson (.jarr [.jnum a, .jnum b]) ++ rest)
      = some (.jarr [.jnum a, .jnum b], rest) := by
  have hd : dumpJson (.jarr [.jnum a, .jnum b]) ++ rest
      = '[' :: (natChars a ++ (',' :: ' ' :: (natChars b ++ (']' :: rest)))) := by
    simp [dumpJson, dumpElems]
  obtain ⟨ca, la, hna⟩ := List.exists_cons_of_ne_nil (natChars_ne_nil a)
  have hca := natChars_all_digits a ca (by rw [hna]; exact List.mem_cons_self ..)
  obtain ⟨hwsa, _, _, _, _, _, _, hbra, _, _, _⟩ := digit_char_facts ca hca
  rw [hd, pVal_eqn_pos fuel (by omega)]
  rw [skipWs_cons_neg '[' _ (by decide)]
  dsimp only
  rw [if_neg (by decide : ¬('[' : Char) = '"'), if_pos rfl]
  rw [hna, List.cons_append, skipWs_cons_neg ca _ hwsa, List.head?_cons]
  rw [if_neg (by simp [hbra] : ¬ (some ca = some ']'))]
  rw [← List.cons_append, ← hna]
  rw [pElems_eqn_pos (fuel - 1) (by omega)]
  rw [parse_num_pos (fuel - 1 - 1) a _ (by omega)
    (by intro c hc; simp only [List.head?_cons, Option.some.injEq] at hc; subst hc; decide)]
  dsimp only
  rw [skipWs_cons_neg ',' _ (by decide), List.head?_cons, if_pos rfl]
  dsimp only [List.tail_cons]
  rw [pElems_ws _ ' ' _ (by decide)]
  rw [pElems_eqn_pos (fuel - 1 - 1) (by omega)]
  rw [parse_num_pos (fuel - 1 - 1 - 1) b _ (by omega)
    (by intro c hc; simp only [List.head?_cons, Option.some.injEq] at hc; subst hc; decide)]
  dsimp only
  rw [skipWs_cons_neg ']' _ (by decide), List.head?_cons]
  rw [if_neg (by decide : ¬(some ']' = some ','))]
  rw [if_pos rfl]
  rfl

/-- Whitespace skipping is the identity when the head is not whitespace. -/
theorem skipWs_eq_self_of_head (l : List Char) (c : Char) (h : l.head? = some c)
    (hw : isWsCh c = false) : skipWs l = l := by
  cases l with
  | nil => rfl
  | cons c₀ tl =>
    rw [List.head?_cons, Option.some.injEq] at h
    subst h
    exact skipWs_cons_neg c₀ tl hw

/-- Reading back an emitted comma-separated run of pairs up to the
closing bracket. -/
theorem parse_pairElems :
    ∀ (ps : List (Nat × Nat)) (fuel : Nat) (rest : List Char), ps ≠ [] →
      4 + ps.length ≤ fuel →
      pElems fuel (dumpElems (ps.map fun p => Json.jarr [Json.jnum p.1, Json.jnum p.2])
          ++ (']' :: rest))
        = some (ps.map fun p => Json.jarr [Json.jnum p.1, Json.jnum p.2], rest) := by
  intro ps
  induction ps with
  | nil => intro fuel rest h; exact absurd rfl h
  | cons p tl ih =>
    intro fuel rest _ hf
    simp only [List.length_cons] at hf
    cases tl with
    | nil =>
      rw [show ((p :: []).map fun p => Json.jarr [Json.jnum p.1, Json.jnum p.2])
          = [Json.jarr [Json.jnum p.1, Json.jnum p.2]] from rfl]
      rw [show dumpElems [Json.jarr [Json.jnum p.1, Json.jnum p.2]]
          = dumpJson (Json.jarr [Json.jnum p.1, Json.jnum p.2]) from rfl]
      rw [pElems_eqn_pos fuel (by omega)]
      rw [parse_pair (fuel - 1) p.1 p.2 _ (by omega)]
      dsimp only
      rw [skipWs_cons_neg ']' _ (by decide), List.head?_cons]
      rw [if_neg (by decide : ¬(some ']' = some ','))]
      rw [if_pos rfl]
      rfl
    | cons q tl₂ =>
      have hsh : dumpElems (((p :: q :: tl₂).map fun p => Json.jarr [Json.jnum p.1, Json.jnum p.2]))
            ++ (']' :: rest)
          = dumpJson (Json.jarr [Json.jnum p.1, Json.jnum p.2])
            ++ (',' :: ' ' :: (dumpElems ((q :: tl₂).map fun p =>
                Json.jarr [Json.jnum p.1, Json.jnum p.2]) ++ (']' :: rest))) := by
        simp [dumpElems, List.append_assoc]
      rw [hsh]
      rw [pElems_eqn_pos fuel (by omega)]
      rw [parse_pair (fuel - 1) p.1 p.2 _ (by omega)]
      dsimp only
      rw [skipWs_cons_neg ',' _ (by decide), List.head?_cons, if_pos rfl]
      dsimp only [List.tail_cons]
      rw [pElems_ws _ ' ' _ (by decide)]
      rw [ih (fuel - 1) rest (by simp) (by simp only [List.length_cons] at hf ⊢; omega)]
      rfl

/-- Reading back an emitted pairs array. -/
theorem parse_pairsJson (ps : List (Nat × Nat)) (fuel : Nat) (rest : List Char)
    (hf : 6 + ps.length ≤ fuel) :
    pVal fuel (dumpJson (pairsJson ps) ++ rest) = some (pairsJson ps, rest) := by
  cases ps with
  | nil =>
    rw [show dumpJson (pairsJson []) = ['[', ']'] by simp [pairsJson, dumpJson, dumpElems]]
    rw [pVal_eqn_pos fuel (by omega)]
    rw [show (['[', ']'] ++ rest : List Char) = '[' :: (']' :: rest) from rfl]
    rw [skipWs_cons_neg '[' _ (by decide)]
    dsimp only
    rw [if_neg (by decide : ¬('[' : Char) = '"'), if_pos rfl]
    rw [skipWs_cons_neg ']' _ (by decide), List.head?_cons, if_pos rfl]
    rfl
  | cons p tl =>
    have hY : dumpJson (Json.jarr [Json.jnum p.1, Json.jnum p.2])
        = '[' :: (natChars p.1 ++ ',' :: ' ' :: (natChars p.2 ++ [']'])) := by
      simp [dumpJson, dumpElems]
    have hhead : ∀ l : List Char,
        (dumpElems (((p :: tl)).map fun p => Json.jarr [Json.jnum p.1, Json.jnum p.2])
          ++ l).head? = some '[' := by
      intro l
      cases tl with
      | nil => rw [show dumpElems (((p :: [])).map fun p =>
            Json.jarr [Json.jnum p.1, Json.jnum p.2])
          = dumpJson (Json.jarr [Json.jnum p.1, Json.jnum p.2]) from rfl, hY]; rfl
      | cons q tl₂ =>
        rw [show dumpElems (((p :: q :: tl₂)).map fun p =>
              Json.jarr [Json.jnum p.1, Json.jnum p.2])
            = dumpJson (Json.jarr [Json.jnum p.1, Json.jnum p.2])
              ++ ", ".toList ++ dumpElems ((q :: tl₂).map fun p =>
                Json.jarr [Json.jnum p.1, Json.jnum p.2]) from by simp [dumpElems], hY]
        rfl
    rw [show dumpJson (pairsJson (p :: tl))
        = '[' :: (dumpElems (((p :: tl)).map fun p =>
            Json.jarr [Json.jnum p.1, Json.jnum p.2]) ++ [']']) by
      simp [pairsJson, dumpJson]]
    rw [show ('[' :: (dumpElems (((p :: tl)).map fun p =>
          Json.jarr [Json.jnum p.1, Json.jnum p.2]) ++ [']'])) ++ rest
        = '[' :: (dumpElems (((p :: tl)).map fun p =>
            Json.jarr [Json.jnum p.1, Json.jnum p.2]) ++ (']' :: rest)) by
      simp [List.append_assoc]]
    rw [pVal_eqn_pos fuel (by omega)]
    rw [skipWs_cons_neg '[' _ (by decide)]
    dsimp only
    rw [if_neg (by decide : ¬('[' : Char) = '"'), if_pos rfl]
    rw [skipWs_eq_self_of_head _ '[' (hhead (']' :: rest)) (by decide)]
    rw [hhead (']' :: rest)]
    rw [if_neg (by decide : ¬(some '[' = some ']'))]
    rw [parse_pairElems (p :: tl) (fuel - 1) rest (by simp)
      (by simp only [List.length_cons] at hf ⊢; omega)]
    rfl

/-- A numeral is at least one character. -/
theorem natChars_len_pos (n : Nat) : 1 ≤ (natChars n).length :=
  List.length_pos.mpr (natChars_ne_nil n)

/-- An emitted pair is at least six characters. -/
theorem pair_dump_len (a b : Nat) : 6 ≤ (dumpJson (.jarr [.jnum a, .jnum b])).length := by
  rw [show dumpJson (.jarr [.jnum a, .jnum b])
      = '[' :: (natChars a ++ ',' :: ' ' :: (natChars b ++ [']'])) by
    simp [dumpJson, dumpElems]]
  have h1 := natChars_len_pos a
  have h2 := natChars_len_pos b
  simp only [List.length_cons, List.length_append]
  omega

/-- An emitted run of pairs is long enough to pay for its own parse. -/
theorem elems_dump_len :
    ∀ ps : List (Nat × Nat), ps ≠ [] →
      ps.length + 4 ≤ (dumpElems (ps.map fun p => Json.jarr [Json.jnum p.1, Json.jnum p.2])).length := by
  intro ps
  induction ps with
  | nil => intro h; exact absurd rfl h
  | cons p tl ih =>
    intro _
    cases tl with
    | nil =>
      rw [show dumpElems ([p].map fun p => Json.jarr [Json.jnum p.1, Json.jnum p.2])
          = dumpJson (Json.jarr [Json.jnum p.1, Json.jnum p.2]) from rfl]
      have := pair_dump_len p.1 p.2
      simp only [List.length_cons, List.length_nil]
      omega
    | cons q tl₂ =>
      rw [show dumpElems ((p :: q :: tl₂).map fun p => Json.jarr [Json.jnum p.1, Json.jnum p.2])
          = dumpJson (Json.jarr [Json.jnum p.1, Json.jnum p.2]) ++ ", ".toList
            ++ dumpElems ((q :: tl₂).map fun p => Json.jarr [Json.jnum p.1, Json.jnum p.2]) from by
        simp [dumpElems]]
      have h1 := pair_dump_len p.1 p.2
      have h2 := ih (by simp)
      simp only [List.length_cons, List.length_append] at h2 ⊢
      omega

/-- Reading back an emitted pairs array, with the fuel financed by the
emitted text's own length. -/
theorem parse_pairsJson_len (ps : List (Nat × Nat)) (fuel : Nat) (rest : List Char)
    (hf : (dumpJson (pairsJson ps)).length ≤ fuel) :
    pVal fuel (dumpJson (pairsJson ps) ++ rest) = some (pairsJson ps, rest) := by
  cases ps with
  | nil =>
    have hl : (dumpJson (pairsJson ([] : List (Nat × Nat)))).length = 2 := by
      rw [show dumpJson (pairsJson []) = ['[', ']'] by simp [pairsJson, dumpJson, dumpElems]]
      rfl
    rw [hl] at hf
    rw [show dumpJson (pairsJson []) = ['[', ']'] by simp [pairsJson, dumpJson, dumpElems]]
    rw [pVal_eqn_pos fuel (by omega)]
    rw [show (['[', ']'] ++ rest : List Char) = '[' :: (']' :: rest) from rfl]
    rw [skipWs_cons_neg '[' _ (by decide)]
    dsimp only
    rw [if_neg (by decide : ¬('[' : Char) = '"'), if_pos rfl]
    rw [skipWs_cons_neg ']' _ (by decide), List.head?_cons, if_pos rfl]
    rfl
  | cons p tl =>
    apply parse_pairsJson
    have h1 := elems_dump_len (p :: tl) (by simp)
    have h2 : (dumpJson (pairsJson (p :: tl))).length
        = (dumpElems ((p :: tl).map fun p =>
            Json.jarr [Json.jnum p.1, Json.jnum p.2])).length + 2 := by
      rw [show dumpJson (pairsJson (p :: tl))
          = '[' :: (dumpElems ((p :: tl).map fun p =>
              Json.jarr [Json.jnum p.1, Json.jnum p.2]) ++ [']']) by
        simp [pairsJson, dumpJson]]
      simp [List.length_append]
    rw [h2] at hf
    simp only [List.length_cons] at h1 hf ⊢
    omega

/-- Reading a plain string body consumes exactly through the closing
quote. -/
theorem readStrBody_plain (s : String) (rest : List Char) (hp : plainStr s = true) :
    readStrBody (s.toList ++ '"' :: rest) = some (s, rest) := by
  have hnq : ∀ c ∈ s.toList, (c ≠ '"' : Bool) = true := by
    intro c hc
    simp only [plainStr, List.all_eq_true] at hp
    have := hp c hc
    simp only [Bool.and_eq_true, decide_eq_true_eq] at this
    simp [this.1]
  have hsplit := takeDropWhile_all_append (fun c => c ≠ '"') s.toList ('"' :: rest) hnq
    (fun c hc => by
      simp only [List.head?_cons, Option.some.injEq] at hc
      subst hc
      simp)
  unfold readStrBody
  rw [hsplit.1, hsplit.2]
  rfl

/-- The fields reader on input starting with a quote. -/
theorem pFields_quote (fuel : Nat) (h : 1 ≤ fuel) (r : List Char) :
    pFields fuel ('"' :: r) =
      match readStrBody r with
      | none => none
      | some (k, r₂) =>
        if (skipWs r₂).head? = some ':' then
          match pVal (fuel - 1) (skipWs r₂).tail with
          | none => none
          | some (v, r₄) =>
            if (skipWs r₄).head? = some ',' then
              (pFields (fuel - 1) (skipWs r₄).tail).map (fun p => ((k, v) :: p.1, p.2))
            else if (skipWs r₄).head? = some rbraceC then some ([(k, v)], (skipWs r₄).tail)
            else none
        else none := by
  obtain ⟨g, rfl⟩ : ∃ g, fuel = g + 1 := ⟨fuel - 1, by omega⟩
  simp only [Nat.add_sub_cancel]
  rw [pFields_eqn g ('"' :: r), skipWs_cons_neg _ _ (by decide)]
  rfl

/-- Reading back an emitted run of `"key": pairs-array` object fields
followed by the closing brace, keys plain, fuel financed by the emitted
length. -/
theorem parse_groupFields :
    ∀ (gs : List (String × List (Nat × Nat))) (fuel : Nat) (rest : List Char),
      gs ≠ [] →
      (∀ g ∈ gs, plainStr g.1 = true) →
      (dumpFields (gs.map fun g => (g.1, pairsJson g.2))).length + 1 ≤ fuel →
      pFields fuel (dumpFields (gs.map fun g => (g.1, pairsJson g.2)) ++ (rbraceC :: rest))
        = some (gs.map fun g => (g.1, pairsJson g.2), rest) := by
  intro gs
  induction gs with
  | nil => intro fuel rest h; exact absurd rfl h
  | cons g tl ih =>
    intro fuel rest _ hkeys hf
    have hkey : plainStr g.1 = true := hkeys g (List.mem_cons_self ..)
    cases tl with
    | nil =>
      have hshape : dumpFields ([g].map fun g => (g.1, pairsJson g.2)) ++ (rbraceC :: rest)
          = '"' :: (g.1.toList ++ '"' :: (':' :: ' ' :: (dumpJson (pairsJson g.2)
              ++ (rbraceC :: rest)))) := by
        simp [dumpFields, strChars]
      have hlen : (dumpFields ([g].map fun g => (g.1, pairsJson g.2))).length
          = g.1.toList.length + 4 + (dumpJson (pairsJson g.2)).length := by
        simp [dumpFields, strChars, List.length_append]
        omega
      rw [hlen] at hf
      rw [hshape, pFields_quote fuel (by omega)]
      rw [readStrBody_plain g.1 _ hkey]
      dsimp only
      rw [skipWs_cons_neg ':' _ (by decide), List.head?_cons, if_pos rfl, List.tail_cons]
      rw [pVal_ws _ ' ' _ (by decide)]
      rw [parse_pairsJson_len g.2 (fuel - 1) _ (by omega)]
      dsimp only
      rw [skipWs_cons_neg rbraceC _ (by decide), List.head?_cons,
        if_neg (by decide : ¬(some rbraceC = some ',')), if_pos rfl, List.tail_cons]
      rfl
    | cons q tl₂ =>
      have hshape : dumpFields ((g :: q :: tl₂).map fun g => (g.1, pairsJson g.2))
            ++ (rbraceC :: rest)
          = '"' :: (g.1.toList ++ '"' :: (':' :: ' ' :: (dumpJson (pairsJson g.2)
              ++ (',' :: ' ' :: (dumpFields ((q :: tl₂).map fun g => (g.1, pairsJson g.2))
                ++ (rbraceC :: rest)))))) := by
        simp [dumpFields, strChars]
      have hlen : (dumpFields ((g :: q :: tl₂).map fun g => (g.1, pairsJson g.2))).length
          = g.1.toList.length + 6 + (dumpJson (pairsJson g.2)).length
            + (dumpFields ((q :: tl₂).map fun g => (g.1, pairsJson g.2))).length := by
        simp [dumpFields, strChars, List.length_append]
        omega
      rw [hlen] at hf
      rw [hshape, pFields_quote fuel (by omega)]
      rw [readStrBody_plain g.1 _ hkey]
      dsimp only
      rw [skipWs_cons_neg ':' _ (by decide), List.head?_cons, if_pos rfl, List.tail_cons]
      rw [pVal_ws _ ' ' _ (by decide)]
      rw [parse_pairsJson_len g.2 (fuel - 1) _ (by omega)]
      dsimp only
      rw [skipWs_cons_neg ',' _ (by decide), List.head?_cons, if_pos rfl, List.tail_cons]
      rw [pFields_ws _ ' ' _ (by decide)]
      rw [ih (fuel - 1) rest (by simp) (fun x hx => hkeys x (List.mem_cons_of_mem g hx))
        (by omega)]
      rfl

/-- Reading back an emitted object of `key: pairs-array` groups. -/
theorem parse_groupsObj (gs : List (String × List (Nat × Nat))) (fuel : Nat) (rest : List Char)
    (hkeys : ∀ g ∈ gs, plainStr g.1 = true)
    (hf : (dumpJson (.jobj (gs.map fun g => (g.1, pairsJson g.2)))).length ≤ fuel) :
    pVal fuel (dumpJson (.jobj (gs.map fun g => (g.1, pairsJson g.2))) ++ rest)
      = some (.jobj (gs.map fun g => (g.1, pairsJson g.2)), rest) := by
  cases gs with
  | nil =>
    have hl : (dumpJson (Json.jobj (([] : List (String × List (Nat × Nat))).map
        fun g => (g.1, pairsJson g.2)))).length = 2 := by
      rw [show dumpJson (Json.jobj (([] : List (String × List (Nat × Nat))).map
          fun g => (g.1, pairsJson g.2))) = [lbraceC, rbraceC] by simp [dumpJson, dumpFields]]
      rfl
    rw [hl] at hf
    rw [show dumpJson (Json.jobj (([] : List (String × List (Nat × Nat))).map
        fun g => (g.1, pairsJson g.2))) = [lbraceC, rbraceC] by simp [dumpJson, dumpFields]]
    rw [pVal_eqn_pos fuel (by omega)]
    rw [show ([lbraceC, rbraceC] ++ rest : List Char) = lbraceC :: (rbraceC :: rest) from rfl]
    rw [skipWs_cons_neg lbraceC _ (by decide)]
    dsimp only
    rw [if_neg (by decide : ¬lbraceC = '"'), if_neg (by decide : ¬lbraceC = '['), if_pos rfl]
    rw [skipWs_cons_neg rbraceC _ (by decide), List.head?_cons, if_pos rfl]
    rfl
  | cons g tl =>
    have hshape : dumpJson (Json.jobj ((g :: tl).map fun g => (g.1, pairsJson g.2))) ++ rest
        = lbraceC :: ((dumpFields ((g :: tl).map fun g => (g.1, pairsJson g.2))
            ++ (rbraceC :: rest))) := by
      simp [dumpJson]
    have hlen : (dumpJson (Json.jobj ((g :: tl).map fun g => (g.1, pairsJson g.2)))).length
        = (dumpFields ((g :: tl).map fun g => (g.1, pairsJson g.2))).length + 2 := by
      rw [show dumpJson (Json.jobj ((g :: tl).map fun g => (g.1, pairsJson g.2)))
          = lbraceC :: (dumpFields ((g :: tl).map fun g => (g.1, pairsJson g.2)) ++ [rbraceC])
          by simp [dumpJson]]
      simp [List.length_append]
    rw [hlen] at hf
    rw [hshape, pVal_eqn_pos fuel (by omega)]
    rw [skipWs_cons_neg lbraceC _ (by decide)]
    dsimp only
    rw [if_neg (by decide : ¬lbraceC = '"'), if_neg (by decide : ¬lbraceC = '['), if_pos rfl]
    have hcons : ∃ T, dumpFields ((g :: tl).map fun g => (g.1, pairsJson g.2))
        ++ (rbraceC :: rest) = '"' :: T := by
      cases tl with
      | nil =>
        exact ⟨g.1.toList ++ '"' :: (':' :: ' ' :: (dumpJson (pairsJson g.2)
          ++ (rbraceC :: rest))), by simp [dumpFields, strChars]⟩
      | cons q tl₂ =>
        exact ⟨g.1.toList ++ '"' :: (':' :: ' ' :: (dumpJson (pairsJson g.2)
          ++ (',' :: ' ' :: (dumpFields ((q :: tl₂).map fun g => (g.1, pairsJson g.2))
            ++ (rbraceC :: rest))))), by simp [dumpFields, strChars]⟩
    obtain ⟨T, hT⟩ := hcons
    rw [hT, skipWs_cons_neg '"' _ (by decide), List.head?_cons,
      if_neg (by decide : ¬(some '"' = some rbraceC))]
    rw [← hT]
    rw [parse_groupFields (g :: tl) (fuel - 1) rest (by simp) hkeys (by omega)]
    rfl

/-- A numeral string is plain. -/
theorem plainStr_natStr (n : Nat) : plainStr (natStr n) = true := by
  simp only [plainStr, List.all_eq_true]
  intro c hc
  have hd : isDigitCh c = true := natChars_all_digits n c hc
  obtain ⟨-, hq, -, -, -, -, -, -, -, -, -⟩ := digit_char_facts c hd
  have hbs : c ≠ '\\' := fun hEq => by subst hEq; revert hd; decide
  simp only [isDigitCh, Bool.and_eq_true, decide_eq_true_eq] at hd
  simp only [Bool.and_eq_true, decide_eq_true_eq, ne_eq]
  exact ⟨⟨hq, hbs⟩, by omega⟩

/-- Reading back an emitted run of object fields with plain keys, given
that each field's value reads back, fuel financed by the emitted
length. -/
theorem parse_fieldsGen :
    ∀ (kvs : List (String × Json)) (fuel : Nat) (rest : List Char),
      kvs ≠ [] →
      (∀ kv ∈ kvs, plainStr kv.1 = true) →
      (∀ kv ∈ kvs, ∀ fu : Nat, ∀ re : List Char, (dumpJson kv.2).length ≤ fu →
        pVal fu (dumpJson kv.2 ++ re) = some (kv.2, re)) →
      (dumpFields kvs).length + 1 ≤ fuel →
      pFields fuel (dumpFields kvs ++ (rbraceC :: rest)) = some (kvs, rest) := by
  intro kvs
  induction kvs with
  | nil => intro fuel rest h; exact absurd rfl h
  | cons kv tl ih =>
    intro fuel rest _ hkeys hvals hf
    have hkey : plainStr kv.1 = true := hkeys kv (List.mem_cons_self ..)
    have hval := hvals kv (List.mem_cons_self ..)
    cases tl with
    | nil =>
      have hshape : dumpFields [kv] ++ (rbraceC :: rest)
          = '"' :: (kv.1.toList ++ '"' :: (':' :: ' ' :: (dumpJson kv.2
              ++ (rbraceC :: rest)))) := by
        simp [dumpFields, strChars]
      have hlen : (dumpFields [kv]).length
          = kv.1.toList.length + 4 + (dumpJson kv.2).length := by
        simp [dumpFields, strChars, List.length_append]
        omega
      rw [hlen] at hf
      rw [hshape, pFields_quote fuel (by omega)]
      rw [readStrBody_plain kv.1 _ hkey]
      dsimp only
      rw [skipWs_cons_neg ':' _ (by decide), List.head?_cons, if_pos rfl, List.tail_cons]
      rw [pVal_ws _ ' ' _ (by decide)]
      rw [hval (fuel - 1) _ (by omega)]
      dsimp only
      rw [skipWs_cons_neg rbraceC _ (by decide), List.head?_cons,
        if_neg (by decide : ¬(some rbraceC = some ',')), if_pos rfl, List.tail_cons]
    | cons q tl₂ =>
      have hshape : dumpFields (kv :: q :: tl₂) ++ (rbraceC :: rest)
          = '"' :: (kv.1.toList ++ '"' :: (':' :: ' ' :: (dumpJson kv.2
              ++ (',' :: ' ' :: (dumpFields (q :: tl₂) ++ (rbraceC :: rest)))))) := by
        simp [dumpFields, strChars]
      have hlen : (dumpFields (kv :: q :: tl₂)).length
          = kv.1.toList.length + 6 + (dumpJson kv.2).length
            + (dumpFields (q :: tl₂)).length := by
        simp [dumpFields, strChars, List.length_append]
        omega
      rw [hlen] at hf
      rw [hshape, pFields_quote fuel (by omega)]
      rw [readStrBody_plain kv.1 _ hkey]
      dsimp only
      rw [skipWs_cons_neg ':' _ (by decide), List.head?_cons, if_pos rfl, List.tail_cons]
      rw [pVal_ws _ ' ' _ (by decide)]
      rw [hval (fuel - 1) _ (by omega)]
      dsimp only
      rw [skipWs_cons_neg ',' _ (by decide), List.head?_cons, if_pos rfl, List.tail_cons]
      rw [pFields_ws _ ' ' _ (by decide)]
      rw [ih (fuel - 1) rest (by simp) (fun x hx => hkeys x (List.mem_cons_of_mem kv hx))
        (fun x hx => hvals x (List.mem_cons_of_mem kv hx)) (by omega)]
      rfl

/-- Reading back an emitted object whose keys are plain and whose values
read back. -/
theorem parse_objGen (kvs : List (String × Json)) (fuel : Nat) (rest : List Char)
    (hkeys : ∀ kv ∈ kvs, plainStr kv.1 = true)
    (hvals : ∀ kv ∈ kvs, ∀ fu : Nat, ∀ re : List Char, (dumpJson kv.2).length ≤ fu →
      pVal fu (dumpJson kv.2 ++ re) = some (kv.2, re))
    (hf : (dumpJson (.jobj kvs)).length ≤ fuel) :
    pVal fuel (dumpJson (.jobj kvs) ++ rest) = some (.jobj kvs, rest) := by
  cases kvs with
  | nil =>
    have hl : (dumpJson (Json.jobj [])).length = 2 := by
      rw [show dumpJson (Json.jobj []) = [lbraceC, rbraceC] by simp [dumpJson, dumpFields]]
      rfl
    rw [hl] at hf
    rw [show dumpJson (Json.jobj []) = [lbraceC, rbraceC] by simp [dumpJson, dumpFields]]
    rw [pVal_eqn_pos fuel (by omega)]
    rw [show ([lbraceC, rbraceC] ++ rest : List Char) = lbraceC :: (rbraceC :: rest) from rfl]
    rw [skipWs_cons_neg lbraceC _ (by decide)]
    dsimp only
    rw [if_neg (by decide : ¬lbraceC = '"'), if_neg (by decide : ¬lbraceC = '['), if_pos rfl]
    rw [skipWs_cons_neg rbraceC _ (by decide), List.head?_cons, if_pos rfl]
    rfl
  | cons kv tl =>
    have hshape : dumpJson (Json.jobj (kv :: tl)) ++ rest
        = lbraceC :: ((dumpFields (kv :: tl) ++ (rbraceC :: rest))) := by
      simp [dumpJson]
    have hlen : (dumpJson (Json.jobj (kv :: tl))).length
        = (dumpFields (kv :: tl)).length + 2 := by
      rw [show dumpJson (Json.jobj (kv :: tl))
          = lbraceC :: (dumpFields (kv :: tl) ++ [rbraceC]) by simp [dumpJson]]
      simp [List.length_append]
    rw [hlen] at hf
    rw [hshape, pVal_eqn_pos fuel (by omega)]
    rw [skipWs_cons_neg lbraceC _ (by decide)]
    dsimp only
    rw [if_neg (by decide : ¬lbraceC = '"'), if_neg (by decide : ¬lbraceC = '['), if_pos rfl]
    have hcons : ∃ T, dumpFields (kv :: tl) ++ (rbraceC :: rest) = '"' :: T := by
      cases tl with
      | nil =>
        exact ⟨kv.1.toList ++ '"' :: (':' :: ' ' :: (dumpJson kv.2
          ++ (rbraceC :: rest))), by simp [dumpFields, strChars]⟩
      | cons q tl₂ =>
        exact ⟨kv.1.toList ++ '"' :: (':' :: ' ' :: (dumpJson kv.2
          ++ (',' :: ' ' :: (dumpFields (q :: tl₂) ++ (rbraceC :: rest))))),
          by simp [dumpFields, strChars]⟩
    obtain ⟨T, hT⟩ := hcons
    rw [hT, skipWs_cons_neg '"' _ (by decide), List.head?_cons,
      if_neg (by decide : ¬(some '"' = some rbraceC))]
    rw [← hT]
    rw [parse_fieldsGen (kv :: tl) (fuel - 1) rest (by simp) hkeys hvals (by omega)]
    rfl

/-- Reading back the emitted formatting dictionary, provided the family
names are plain strings. -/
theorem parse_fmtJson (fd : FmtData) (fuel : Nat) (rest : List Char)
    (hfam : ∀ g ∈ fd.font_family, plainStr g.1 = true)
    (hf : (dumpJson (fmtJson fd)).length ≤ fuel) :
    pVal fuel (dumpJson (fmtJson fd) ++ rest) = some (fmtJson fd, rest) := by
  have hsz : (fd.font_size.map fun g => ((natStr g.1 : String), g.2)).map
      (fun g => (g.1, pairsJson g.2)) = fd.font_size.map fun g => (natStr g.1, pairsJson g.2) := by
    simp [List.map_map, Function.comp]
  simp only [fmtJson] at hf ⊢
  apply parse_objGen _ fuel rest ?_ ?_ hf
  · intro kv hkv
    simp only [List.mem_cons, List.not_mem_nil, or_false] at hkv
    rcases hkv with rfl | rfl | rfl | rfl | rfl <;> rfl
  · intro kv hkv fu re hfu
    simp only [List.mem_cons, List.not_mem_nil, or_false] at hkv
    rcases hkv with rfl | rfl | rfl | rfl | rfl
    · exact parse_pairsJson_len fd.bold fu re hfu
    · exact parse_pairsJson_len fd.italic fu re hfu
    · exact parse_pairsJson_len fd.underline fu re hfu
    · rw [← hsz] at hfu ⊢
      refine parse_groupsObj _ fu re ?_ hfu
      intro x hx
      simp only [List.mem_map] at hx
      obtain ⟨a, _, rfl⟩ := hx
      exact plainStr_natStr a.1
    · exact parse_groupsObj fd.font_family fu re hfam hfu

/-- `json.loads` on the saved formatting text returns the emitted
dictionary. -/
theorem parse_fmtStr (fd : FmtData)
    (hfam : ∀ g ∈ fd.font_family, plainStr g.1 = true) :
    parseJson (fmtStr fd) = some (fmtJson fd) := by
  have hmain := parse_fmtJson fd ((dumpJson (fmtJson fd)).length + 1) [] hfam (by omega)
  rw [List.append_nil] at hmain
  simp only [parseJson]
  rw [show (fmtStr fd).toList = dumpJson (fmtJson fd) from rfl,
    show (fmtStr fd).length = (dumpJson (fmtJson fd)).length from rfl, hmain]
  rfl

/-- Applying an emitted pairs list re-adds exactly the nonempty ranges,
with no entry raising. -/
theorem applyPairs_build (k : Kind) :
    ∀ (ps : List (Nat × Nat)) (d : Doc),
      applyPairs k d (ps.map fun p => Json.jarr [Json.jnum p.1, Json.jnum p.2])
        = ({ d with styles := d.styles ++ rangesOfPairs k ps }, true) := by
  intro ps
  induction ps with
  | nil =>
    intro d
    simp [applyPairs, rangesOfPairs]
  | cons p tl ih =>
    intro d
    rw [List.map_cons]
    rw [show applyPairs k d ((Json.jarr [Json.jnum p.1, Json.jnum p.2])
          :: (tl.map fun p => Json.jarr [Json.jnum p.1, Json.jnum p.2]))
        = applyPairs k (tagAdd d k p.1 p.2)
          (tl.map fun p => Json.jarr [Json.jnum p.1, Json.jnum p.2]) from rfl]
    rw [ih]
    by_cases hlt : p.1 < p.2
    · simp [tagAdd, rangesOfPairs, hlt, List.filterMap_cons, List.append_assoc]
    · simp [tagAdd, rangesOfPairs, hlt, List.filterMap_cons]

/-- Applying emitted size groups re-adds exactly their ranges. -/
theorem applySizeGroups_build :
    ∀ (sz : List (Nat × List (Nat × Nat))) (d : Doc),
      applySizeGroups d (sz.map fun g => ((natStr g.1 : String), pairsJson g.2))
        = ({ d with styles := d.styles
              ++ sz.flatMap fun g => rangesOfPairs (.size g.1) g.2 }, true) := by
  intro sz
  induction sz with
  | nil =>
    intro d
    simp [applySizeGroups]
  | cons g tl ih =>
    intro d
    rw [List.map_cons]
    show applySizeGroups d ((natStr g.1, pairsJson g.2)
      :: tl.map fun g => ((natStr g.1 : String), pairsJson g.2)) = _
    rw [show applySizeGroups d ((natStr g.1, pairsJson g.2)
          :: tl.map fun g => ((natStr g.1 : String), pairsJson g.2))
        = (if isDigitStr (natStr g.1) then
            match applyPairs (.size (digitsVal (natStr g.1).toList)) d
                (g.2.map fun p => Json.jarr [Json.jnum p.1, Json.jnum p.2]) with
            | (d', true) => applySizeGroups d' (tl.map fun g => ((natStr g.1 : String), pairsJson g.2))
            | (d', false) => (d', false)
          else (d, false)) from rfl]
    rw [if_pos (isDigitStr_natStr g.1)]
    have hkd : digitsVal (natStr g.1).toList = g.1 := digitsVal_natChars g.1
    rw [hkd, applyPairs_build]
    dsimp only
    rw [ih]
    simp [List.flatMap_cons, List.append_assoc]

/-- Applying emitted family groups re-adds exactly their ranges. -/
theorem applyFamGroups_build :
    ∀ (fam : List (String × List (Nat × Nat))) (d : Doc),
      applyFamGroups d (fam.map fun g => (g.1, pairsJson g.2))
        = ({ d with styles := d.styles
              ++ fam.flatMap fun g => rangesOfPairs (.family g.1) g.2 }, true) := by
  intro fam
  induction fam with
  | nil =>
    intro d
    simp [applyFamGroups]
  | cons g tl ih =>
    intro d
    rw [List.map_cons]
    rw [show applyFamGroups d ((g.1, pairsJson g.2)
          :: tl.map fun g => (g.1, pairsJson g.2))
        = (match applyPairs (.family g.1) d
              (g.2.map fun p => Json.jarr [Json.jnum p.1, Json.jnum p.2]) with
          | (d', true) => applyFamGroups d' (tl.map fun g => (g.1, pairsJson g.2))
          | (d', false) => (d', false)) from rfl]
    rw [applyPairs_build]
    dsimp only
    rw [ih]
    simp [List.flatMap_cons, List.append_assoc]

/-- Restoring the emitted formatting dictionary appends exactly the
rebuilt style list, with nothing raising along the way. -/
theorem applyFmt_build (fd : FmtData) (d : Doc) :
    applyFormattingJson d (fmtJson fd) = { d with styles := d.styles ++ buildStyles fd } := by
  have hkvs : fmtJson fd = Json.jobj
      [("bold", pairsJson fd.bold),
       ("italic", pairsJson fd.italic),
       ("underline", pairsJson fd.underline),
       ("font_size", .jobj (fd.font_size.map fun g => ((natStr g.1 : String), pairsJson g.2))),
       ("font_family", .jobj (fd.font_family.map fun g => (g.1, pairsJson g.2)))] := rfl
  have h1 : ∀ d' : Doc, applyBoolSection
      [("bold", pairsJson fd.bold),
       ("italic", pairsJson fd.italic),
       ("underline", pairsJson fd.underline),
       ("font_size", .jobj (fd.font_size.map fun g => ((natStr g.1 : String), pairsJson g.2))),
       ("font_family", .jobj (fd.font_family.map fun g => (g.1, pairsJson g.2)))]
      "bold" .bold d'
      = applyPairs .bold d' (fd.bold.map fun p => Json.jarr [Json.jnum p.1, Json.jnum p.2]) :=
    fun d' => rfl
  have h2 : ∀ d' : Doc, applyBoolSection
      [("bold", pairsJson fd.bold),
       ("italic", pairsJson fd.italic),
       ("underline", pairsJson fd.underline),
       ("font_size", .jobj (fd.font_size.map fun g => ((natStr g.1 : String), pairsJson g.2))),
       ("font_family", .jobj (fd.font_family.map fun g => (g.1, pairsJson g.2)))]
      "italic" .italic d'
      = applyPairs .italic d' (fd.italic.map fun p => Json.jarr [Json.jnum p.1, Json.jnum p.2]) :=
    fun d' => rfl
  have h3 : ∀ d' : Doc, applyBoolSection
      [("bold", pairsJson fd.bold),
       ("italic", pairsJson fd.italic),
       ("underline", pairsJson fd.underline),
       ("font_size", .jobj (fd.font_size.map fun g => ((natStr g.1 : String), pairsJson g.2))),
       ("font_family", .jobj (fd.font_family.map fun g => (g.1, pairsJson g.2)))]
      "underline" .underline d'
      = applyPairs .underline d'
          (fd.underline.map fun p => Json.jarr [Json.jnum p.1, Json.jnum p.2]) :=
    fun d' => rfl
  have h4 : sectionObj (getKey
      [("bold", pairsJson fd.bold),
       ("italic", pairsJson fd.italic),
       ("underline", pairsJson fd.underline),
       ("font_size", .jobj (fd.font_size.map fun g => ((natStr g.1 : String), pairsJson g.2))),
       ("font_family", .jobj (fd.font_family.map fun g => (g.1, pairsJson g.2)))]
      "font_size")
      = some (fd.font_size.map fun g => ((natStr g.1 : String), pairsJson g.2)) := rfl
  have h5 : sectionObj (getKey
      [("bold", pairsJson fd.bold),
       ("italic", pairsJson fd.italic),
       ("underline", pairsJson fd.underline),
       ("font_size", .jobj (fd.font_size.map fun g => ((natStr g.1 : String), pairsJson g.2))),
       ("font_family", .jobj (fd.font_family.map fun g => (g.1, pairsJson g.2)))]
      "font_family")
      = some (fd.font_family.map fun g => (g.1, pairsJson g.2)) := rfl
  rw [hkvs]
  simp only [applyFormattingJson]
  rw [h1, applyPairs_build]
  dsimp only
  rw [h2, applyPairs_build]
  dsimp only
  rw [h3, applyPairs_build]
  dsimp only
  rw [h4]
  dsimp only
  rw [applySizeGroups_build]
  dsimp only
  rw [h5]
  dsimp only
  rw [applyFamGroups_build]
  simp [buildStyles, List.append_assoc]

/-- The search helper finds nothing when the pattern starts at no
position. -/
theorem findSub_go_none (pat : List Char) :
    ∀ (l : List Char) (i : Nat), (∀ j, pat.isPrefixOf (l.drop j) = false) →
      findSub.go pat l i = none := by
  intro l
  induction l with
  | nil => intro i _; rfl
  | cons c tl ih =>
    intro i h
    have h0 : pat.isPrefixOf (c :: tl) = false := by simpa using h 0
    show (if pat.isPrefixOf (c :: tl) then some i else findSub.go pat tl (i + 1)) = none
    rw [h0]
    simp only [Bool.false_eq_true, if_false]
    exact ih (i + 1) (fun j => by simpa using h (j + 1))

/-- Conversely, a failed search means the pattern starts at no
position. -/
theorem findSub_go_none_sound (pat : List Char) (hp : pat ≠ []) :
    ∀ (l : List Char) (i : Nat), findSub.go pat l i = none →
      ∀ j, pat.isPrefixOf (l.drop j) = false := by
  intro l
  induction l with
  | nil =>
    intro i _ j
    obtain ⟨p, ps, rfl⟩ := List.exists_cons_of_ne_nil hp
    simp [List.isPrefixOf]
  | cons c tl ih =>
    intro i hnone j
    rw [show findSub.go pat (c :: tl) i
        = (if pat.isPrefixOf (c :: tl) then some i else findSub.go pat tl (i + 1)) from rfl]
      at hnone
    cases hpre : pat.isPrefixOf (c :: tl) with
    | true => rw [hpre] at hnone; simp at hnone
    | false =>
      rw [hpre] at hnone
      simp only [Bool.false_eq_true, if_false] at hnone
      cases j with
      | zero => simpa using hpre
      | succ j' => simpa using ih (i + 1) hnone j'

/-- When the `[IMAGE:` token occurs nowhere, no full marker occurs
either, and one marker-removal pass leaves the document alone. -/
theorem stripForImage_noop (d : Doc) (kv : String × Json)
    (h : ∀ j, ("[IMAGE:".toList.isPrefixOf (d.text.drop j)) = false) :
    stripForImage d kv = d := by
  have hmk : ∀ j, ((markerChars kv.1).isPrefixOf (d.text.drop j)) = false := by
    intro j
    cases hmp : (markerChars kv.1).isPrefixOf (d.text.drop j) with
    | false => rfl
    | true =>
      rw [List.isPrefixOf_iff_prefix] at hmp
      have hsub : "[IMAGE:".toList <+: markerChars kv.1 :=
        ⟨kv.1.toList ++ [']'], by simp [markerChars]⟩
      have : "[IMAGE:".toList <+: d.text.drop j := hsub.trans hmp
      rw [← List.isPrefixOf_iff_prefix] at this
      rw [h j] at this
      cases this
  have hnone : findSub (markerChars kv.1) d.text = none :=
    findSub_go_none (markerChars kv.1) d.text 0 hmk
  show stripLoop (markerChars kv.1) _ (d.text.length + 1) 0 d = d
  simp only [stripLoop, List.drop_zero, hnone]

/-- Marker removal over every stored image entry leaves a marker-free
document alone. -/
theorem foldl_strip_noop (kvs : List (String × Json)) (d : Doc)
    (h : ∀ j, ("[IMAGE:".toList.isPrefixOf (d.text.drop j)) = false) :
    kvs.foldl stripForImage d = d := by
  induction kvs with
  | nil => rfl
  | cons kv tl ih => rw [List.foldl_cons, stripForImage_noop d kv h]; exact ih

/-- The saved formatting text is never empty nor the empty-object
literal. -/
theorem fmtStr_guard (fd : FmtData) : ¬(fmtStr fd = "" ∨ fmtStr fd = emptyObjStr) := by
  have htake : ((fmtStr fd).toList.take 2) = [lbraceC, '"'] := by
    simp [fmtStr, fmtJson, dumpJson, dumpFields, strChars]
  rintro (h | h) <;> rw [h] at htake
  · exact absurd htake (by decide)
  · exact absurd htake (by decide)

/-- The saved images text for a nonempty dictionary is never empty nor
the empty-object literal. -/
theorem imagesStr_guard (m : List (String × Json)) (hm : m ≠ []) :
    ¬(imagesStr m = "" ∨ imagesStr m = emptyObjStr) := by
  obtain ⟨kv, tl, rfl⟩ := List.exists_cons_of_ne_nil hm
  have htake : ((imagesStr (kv :: tl)).toList.take 2) = [lbraceC, '"'] := by
    cases tl <;> simp [imagesStr, dumpJson, dumpFields, strChars]
  rintro (h | h) <;> rw [h] at htake
  · exact absurd htake (by decide)
  · exact absurd htake (by decide)

/-- `json.loads` on the saved images text of a nonempty dictionary with
plain digit-free keys and plain string payloads returns the dictionary. -/
theorem parse_imagesStr (m : List (String × Json)) (hm : m ≠ [])
    (hkv : ∀ kv ∈ m, plainStr kv.1 = true ∧ ∃ s, kv.2 = Json.jstr s ∧ plainStr s = true) :
    parseJson (imagesStr m) = some (.jobj m) := by
  have himgs : imagesStr m = ⟨dumpJson (.jobj m)⟩ := by
    obtain ⟨kv, tl, rfl⟩ := List.exists_cons_of_ne_nil hm
    simp [imagesStr]
  have hmain := parse_objGen m ((dumpJson (.jobj m)).length + 1) []
    (fun kv hk => (hkv kv hk).1)
    (fun kv hk fu re hfu => by
      obtain ⟨-, s, hs, hps⟩ := hkv kv hk
      rw [hs] at hfu ⊢
      have hlen : (dumpJson (Json.jstr s)).length = s.toList.length + 2 := by
        simp [dumpJson, strChars, List.length_append]
      exact parse_str_pos fu s re (by omega) hps)
    (by omega)
  rw [List.append_nil] at hmain
  rw [himgs]
  simp only [parseJson]
  rw [show ((⟨dumpJson (.jobj m)⟩ : String)).toList = dumpJson (.jobj m) from rfl,
    show ((⟨dumpJson (.jobj m)⟩ : String)).length = (dumpJson (.jobj m)).length from rfl,
    hmain]
  rfl

/-- Loading a saved row: the buffer gets the stored content (the widget
newline included) and the styles are exactly the rebuilt ranges, provided
the text holds no image-marker token, the stored image entries are
digit-keyed plain strings, and the family names are plain. -/
theorem openNote_serialize (fonts : List String) (d : Doc) (title : String)
    (hni : containsSeq ("[IMAGE:".toList) (d.text ++ ['\n']) = false)
    (himg : ∀ kv ∈ d.images, plainStr kv.1 = true ∧ ∃ s, kv.2 = Json.jstr s ∧ plainStr s = true)
    (hfam : ∀ g ∈ (save_formatting_data fonts d).font_family, plainStr g.1 = true) :
    (openNote (serializeRecord fonts d title)).text = d.text ++ ['\n']
    ∧ (openNote (serializeRecord fonts d title)).styles
        = buildStyles (save_formatting_data fonts d) := by
  have hpre : ∀ j, ("[IMAGE:".toList.isPrefixOf ((d.text ++ ['\n']).drop j)) = false := by
    have hfind : findSub ("[IMAGE:".toList) (d.text ++ ['\n']) = none := by
      simp only [containsSeq] at hni
      exact Option.not_isSome_iff_eq_none.mp (by rw [hni]; exact Bool.false_ne_true)
    exact findSub_go_none_sound _ (by decide) _ 0 hfind
  have hrec : serializeRecord fonts d title =
      { title := title
        content := String.mk (d.text ++ ['\n'])
        images := imagesStr d.images
        formatting := fmtStr (save_formatting_data fonts d) } := rfl
  rw [hrec]
  simp only [openNote]
  by_cases hie : d.images = []
  · rw [show imagesStr d.images = emptyObjStr from by rw [hie]; rfl]
    rw [if_pos (Or.inr rfl)]
    rw [if_neg (fmtStr_guard (save_formatting_data fonts d))]
    rw [parse_fmtStr (save_formatting_data fonts d) hfam]
    dsimp only
    rw [applyFmt_build]
    exact ⟨rfl, rfl⟩
  · rw [if_neg (imagesStr_guard d.images hie)]
    rw [parse_imagesStr d.images hie himg]
    dsimp only
    rw [foldl_strip_noop d.images _ hpre]
    have hieb : d.images.isEmpty = false := by
      obtain ⟨kv0, tl0, hc⟩ := List.exists_cons_of_ne_nil hie
      rw [hc]; rfl
    rw [hieb]
    simp only [Bool.false_eq_true, if_false]
    rw [if_neg (fmtStr_guard (save_formatting_data fonts d))]
    rw [parse_fmtStr (save_formatting_data fonts d) hfam]
    dsimp only
    rw [applyFmt_build]
    exact ⟨rfl, rfl⟩

/-- A range covering some offset is nonempty. -/
theorem coversAt_pos (r : StyleRange) (o : Nat) (h : coversAt r o = true) :
    r.start < r.stop := by
  simp only [coversAt, Bool.and_eq_true, decide_eq_true_eq] at h
  omega

/-- Membership in the restored ranges of one pairs list. -/
theorem mem_rangesOfPairs (k : Kind) (ps : List (Nat × Nat)) (r : StyleRange) :
    r ∈ rangesOfPairs k ps ↔ ∃ p ∈ ps, p.1 < p.2 ∧ r = ⟨k, p.1, p.2⟩ := by
  simp only [rangesOfPairs, List.mem_filterMap]
  constructor
  · rintro ⟨p, hp, hif⟩
    by_cases h : p.1 < p.2
    · rw [if_pos h] at hif
      refine ⟨p, hp, h, ?_⟩
      injection hif with h'
      exact h'.symm
    · rw [if_neg h] at hif; cases hif
  · rintro ⟨p, hp, hlt, rfl⟩
    exact ⟨p, hp, by rw [if_pos hlt]⟩

/-- Membership in the saved pairs of one kind. -/
theorem mem_collectPairs (k : Kind) (styles : List StyleRange) (p : Nat × Nat) :
    p ∈ collectPairs k styles ↔ ∃ r ∈ styles, r.kind = k ∧ p = (r.start, r.stop) := by
  simp only [collectPairs, List.mem_filterMap]
  constructor
  · rintro ⟨r, hr, hif⟩
    by_cases h : r.kind = k
    · rw [if_pos h] at hif
      refine ⟨r, hr, h, ?_⟩
      injection hif with h'
      exact h'.symm
    · rw [if_neg h] at hif; cases hif
  · rintro ⟨r, hr, hk, rfl⟩
    exact ⟨r, hr, by rw [if_pos hk]⟩

/-- Saving one kind's ranges and re-adding them reproduces exactly that
kind's nonempty ranges. -/
theorem mem_rangesOfPairs_collect (k : Kind) (styles : List StyleRange) (r : StyleRange) :
    r ∈ rangesOfPairs k (collectPairs k styles)
      ↔ r ∈ styles ∧ r.kind = k ∧ r.start < r.stop := by
  rw [mem_rangesOfPairs]
  constructor
  · rintro ⟨p, hp, hlt, rfl⟩
    rw [mem_collectPairs] at hp
    obtain ⟨r0, hr0, hk0, hpe⟩ := hp
    subst hpe
    refine ⟨?_, rfl, hlt⟩
    rw [← hk0]
    exact hr0
  · rintro ⟨hr, hk, hlt⟩
    refine ⟨(r.start, r.stop), ?_, hlt, ?_⟩
    · rw [mem_collectPairs]; exact ⟨r, hr, hk, rfl⟩
    · rw [← hk]

/-- Membership in the rebuilt style list: exactly the nonempty ranges of
the original whose kind the saver records. -/
theorem mem_buildStyles (fonts : List String) (d : Doc) (r : StyleRange) :
    r ∈ buildStyles (save_formatting_data fonts d)
      ↔ r ∈ d.styles ∧ r.start < r.stop ∧
          (r.kind = .bold ∨ r.kind = .italic ∨ r.kind = .underline
           ∨ (∃ n, r.kind = Kind.size n ∧ n ∈ comboSizes)
           ∨ (∃ f, r.kind = Kind.family f ∧ f ∈ fonts)) := by
  simp only [buildStyles, save_formatting_data, List.mem_append, List.mem_flatMap]
  constructor
  · rintro ((((h | h) | h) | h) | h)
    · rw [mem_rangesOfPairs_collect] at h; exact ⟨h.1, h.2.2, Or.inl h.2.1⟩
    · rw [mem_rangesOfPairs_collect] at h; exact ⟨h.1, h.2.2, Or.inr (Or.inl h.2.1)⟩
    · rw [mem_rangesOfPairs_collect] at h; exact ⟨h.1, h.2.2, Or.inr (Or.inr (Or.inl h.2.1))⟩
    · obtain ⟨g, hg, hr⟩ := h
      simp only [List.mem_filterMap] at hg
      obtain ⟨n, hn, hif⟩ := hg
      by_cases he : (collectPairs (.size n) d.styles).isEmpty
      · rw [if_pos he] at hif; cases hif
      · rw [if_neg he] at hif
        injection hif with h'
        subst h'
        rw [mem_rangesOfPairs_collect] at hr
        exact ⟨hr.1, hr.2.2, Or.inr (Or.inr (Or.inr (Or.inl ⟨n, hr.2.1, hn⟩)))⟩
    · obtain ⟨g, hg, hr⟩ := h
      simp only [List.mem_filterMap] at hg
      obtain ⟨f, hf, hif⟩ := hg
      by_cases he : (collectPairs (.family f) d.styles).isEmpty
      · rw [if_pos he] at hif; cases hif
      · rw [if_neg he] at hif
        injection hif with h'
        subst h'
        rw [mem_rangesOfPairs_collect] at hr
        exact ⟨hr.1, hr.2.2, Or.inr (Or.inr (Or.inr (Or.inr ⟨f, hr.2.1, hf⟩)))⟩
  · rintro ⟨hr, hlt, hk | hk | hk | ⟨n, hk, hn⟩ | ⟨f, hk, hf⟩⟩
    · exact Or.inl (Or.inl (Or.inl (Or.inl ((mem_rangesOfPairs_collect ..).mpr ⟨hr, hk, hlt⟩))))
    · exact Or.inl (Or.inl (Or.inl (Or.inr ((mem_rangesOfPairs_collect ..).mpr ⟨hr, hk, hlt⟩))))
    · exact Or.inl (Or.inl (Or.inr ((mem_rangesOfPairs_collect ..).mpr ⟨hr, hk, hlt⟩)))
    · refine Or.inl (Or.inr ?_)
      have hmem : (r.start, r.stop) ∈ collectPairs (.size n) d.styles :=
        (mem_collectPairs ..).mpr ⟨r, hr, hk, rfl⟩
      have hieb : (collectPairs (.size n) d.styles).isEmpty = false := by
        obtain ⟨x, xs, hxe⟩ := List.exists_cons_of_ne_nil (List.ne_nil_of_mem hmem)
        rw [hxe]; rfl
      refine ⟨(n, collectPairs (.size n) d.styles), ?_, ?_⟩
      · simp only [List.mem_filterMap]
        exact ⟨n, hn, by rw [if_neg (by rw [hieb]; exact Bool.false_ne_true)]⟩
      · exact (mem_rangesOfPairs_collect ..).mpr ⟨hr, hk, hlt⟩
    · refine Or.inr ?_
      have hmem : (r.start, r.stop) ∈ collectPairs (.family f) d.styles :=
        (mem_collectPairs ..).mpr ⟨r, hr, hk, rfl⟩
      have hieb : (collectPairs (.family f) d.styles).isEmpty = false := by
        obtain ⟨x, xs, hxe⟩ := List.exists_cons_of_ne_nil (List.ne_nil_of_mem hmem)
        rw [hxe]; rfl
      refine ⟨(f, collectPairs (.family f) d.styles), ?_, ?_⟩
      · simp only [List.mem_filterMap]
        exact ⟨f, hf, by rw [if_neg (by rw [hieb]; exact Bool.false_ne_true)]⟩
      · exact (mem_rangesOfPairs_collect ..).mpr ⟨hr, hk, hlt⟩

/-- The size projection is inverted by the `size` constructor. -/
theorem sizeProj_eq_some (k : Kind) (v : Nat) : sizeProj k = some v ↔ k = Kind.size v := by
  cases k <;> simp [sizeProj]

/-- The family projection is inverted by the `family` constructor. -/
theorem famProj_eq_some (k : Kind) (v : String) : famProj k = some v ↔ k = Kind.family v := by
  cases k <;> simp [famProj]

/-- No last value at an offset means no covering range carries one. -/
theorem lastValAt_none_iff {α : Type} (proj : Kind → Option α) (styles : List StyleRange)
    (o : Nat) :
    lastValAt proj styles o = none
      ↔ ∀ r ∈ styles, coversAt r o = true → proj r.kind = none := by
  simp only [lastValAt, List.findSome?_eq_none_iff, List.mem_reverse]
  constructor
  · intro h r hr hc
    have := h r hr
    rw [if_pos hc] at this
    exact this
  · intro h r hr
    by_cases hc : coversAt r o = true
    · rw [if_pos hc]; exact h r hr hc
    · rw [if_neg hc]

/-- A last value at an offset comes from some covering range. -/
theorem lastValAt_some_mem {α : Type} (proj : Kind → Option α) (styles : List StyleRange)
    (o : Nat) (v : α) (h : lastValAt proj styles o = some v) :
    ∃ r ∈ styles, coversAt r o = true ∧ proj r.kind = some v := by
  unfold lastValAt at h
  obtain ⟨r, hr, hfr⟩ := List.exists_of_findSome?_eq_some h
  rw [List.mem_reverse] at hr
  by_cases hc : coversAt r o = true
  · rw [if_pos hc] at hfr; exact ⟨r, hr, hc, hfr⟩
  · rw [if_neg hc] at hfr; cases hfr

/-- Two range lists with the same covering values agree on the last
value, provided covering values are unambiguous. -/
theorem lastValAt_congr {α : Type} (proj : Kind → Option α) (s₁ s₂ : List StyleRange) (o : Nat)
    (hiff : ∀ v, (∃ r ∈ s₁, coversAt r o = true ∧ proj r.kind = some v)
      ↔ (∃ r ∈ s₂, coversAt r o = true ∧ proj r.kind = some v))
    (huniq : ∀ v w : α, (∃ r ∈ s₂, coversAt r o = true ∧ proj r.kind = some v)
      → (∃ r ∈ s₂, coversAt r o = true ∧ proj r.kind = some w) → v = w) :
    lastValAt proj s₁ o = lastValAt proj s₂ o := by
  cases h2 : lastValAt proj s₂ o with
  | none =>
    rw [lastValAt_none_iff] at h2
    rw [lastValAt_none_iff]
    intro r hr hc
    cases hv : proj r.kind with
    | none => rfl
    | some v =>
      obtain ⟨r', hr', hc', hv'⟩ := (hiff v).mp ⟨r, hr, hc, hv⟩
      rw [h2 r' hr' hc'] at hv'
      cases hv'
  | some v =>
    obtain ⟨r2, hr2, hc2, hv2⟩ := lastValAt_some_mem proj s₂ o v h2
    cases h1 : lastValAt proj s₁ o with
    | none =>
      rw [lastValAt_none_iff] at h1
      obtain ⟨r1, hr1, hc1, hv1⟩ := (hiff v).mpr ⟨r2, hr2, hc2, hv2⟩
      rw [h1 r1 hr1 hc1] at hv1
      cases hv1
    | some w =>
      obtain ⟨r1, hr1, hc1, hv1⟩ := lastValAt_some_mem proj s₁ o w h1
      have h2w := (hiff w).mp ⟨r1, hr1, hc1, hv1⟩
      rw [huniq w v h2w ⟨r2, hr2, hc2, hv2⟩]

/-- A boolean tag covers the same offsets before saving and after
reloading. -/
theorem kindActiveAt_buildStyles (fonts : List String) (d : Doc) (k : Kind) (o : Nat)
    (hk : k = .bold ∨ k = .italic ∨ k = .underline) :
    kindActiveAt (buildStyles (save_formatting_data fonts d)) k o
      = kindActiveAt d.styles k o := by
  have hiff : kindActiveAt (buildStyles (save_formatting_data fonts d)) k o = true
      ↔ kindActiveAt d.styles k o = true := by
    simp only [kindActiveAt, List.any_eq_true, Bool.and_eq_true, beq_iff_eq]
    constructor
    · rintro ⟨r, hr, hrk, hrc⟩
      rw [mem_buildStyles] at hr
      exact ⟨r, hr.1, hrk, hrc⟩
    · rintro ⟨r, hr, hrk, hrc⟩
      refine ⟨r, ?_, hrk, hrc⟩
      rw [mem_buildStyles]
      refine ⟨hr, coversAt_pos r o hrc, ?_⟩
      rcases hk with rfl | rfl | rfl
      · exact Or.inl hrk
      · exact Or.inr (Or.inl hrk)
      · exact Or.inr (Or.inr (Or.inl hrk))
  cases hb : kindActiveAt d.styles k o with
  | true => exact hiff.mpr hb
  | false =>
    cases hb2 : kindActiveAt (buildStyles (save_formatting_data fonts d)) k o with
    | false => rfl
    | true => rw [hiff.mp hb2] at hb; cases hb

/-- The resolved style set at every offset survives the save/load
rebuild, provided size values are combo values, families are host fonts,
and covering size/family values are unambiguous at the offset. -/
theorem resolvedAt_buildStyles (fonts : List String) (d : Doc) (settings : Settings) (o : Nat)
    (hsz : ∀ r ∈ d.styles, ∀ n, r.kind = Kind.size n → n ∈ comboSizes)
    (hfm : ∀ r ∈ d.styles, ∀ f, r.kind = Kind.family f → f ∈ fonts)
    (husz : ∀ m n : Nat, (∃ r ∈ d.styles, coversAt r o = true ∧ r.kind = Kind.size m)
      → (∃ r ∈ d.styles, coversAt r o = true ∧ r.kind = Kind.size n) → m = n)
    (hufm : ∀ f g : String, (∃ r ∈ d.styles, coversAt r o = true ∧ r.kind = Kind.family f)
      → (∃ r ∈ d.styles, coversAt r o = true ∧ r.kind = Kind.family g) → f = g) :
    resolvedAt settings (buildStyles (save_formatting_data fonts d)) o
      = resolvedAt settings d.styles o := by
  unfold resolvedAt
  simp only [Resolved.mk.injEq]
  refine ⟨?_, ?_, ?_, ?_, ?_⟩
  · exact kindActiveAt_buildStyles fonts d .bold o (Or.inl rfl)
  · exact kindActiveAt_buildStyles fonts d .italic o (Or.inr (Or.inl rfl))
  · exact kindActiveAt_buildStyles fonts d .underline o (Or.inr (Or.inr rfl))
  · rw [lastValAt_congr sizeProj (buildStyles (save_formatting_data fonts d)) d.styles o
      ?_ ?_]
    · intro v
      constructor
      · rintro ⟨r, hr, hc, hv⟩
        rw [mem_buildStyles] at hr
        exact ⟨r, hr.1, hc, hv⟩
      · rintro ⟨r, hr, hc, hv⟩
        rw [sizeProj_eq_some] at hv
        refine ⟨r, ?_, hc, (sizeProj_eq_some ..).mpr hv⟩
        rw [mem_buildStyles]
        exact ⟨hr, coversAt_pos r o hc,
          Or.inr (Or.inr (Or.inr (Or.inl ⟨v, hv, hsz r hr v hv⟩)))⟩
    · intro v w hv hw
      obtain ⟨r1, hr1, hc1, hp1⟩ := hv
      obtain ⟨r2, hr2, hc2, hp2⟩ := hw
      rw [sizeProj_eq_some] at hp1 hp2
      exact husz v w ⟨r1, hr1, hc1, hp1⟩ ⟨r2, hr2, hc2, hp2⟩
  · rw [lastValAt_congr famProj (buildStyles (save_formatting_data fonts d)) d.styles o
      ?_ ?_]
    · intro v
      constructor
      · rintro ⟨r, hr, hc, hv⟩
        rw [mem_buildStyles] at hr
        exact ⟨r, hr.1, hc, hv⟩
      · rintro ⟨r, hr, hc, hv⟩
        rw [famProj_eq_some] at hv
        refine ⟨r, ?_, hc, (famProj_eq_some ..).mpr hv⟩
        rw [mem_buildStyles]
        exact ⟨hr, coversAt_pos r o hc,
          Or.inr (Or.inr (Or.inr (Or.inr ⟨v, hv, hfm r hr v hv⟩)))⟩
    · intro v w hv hw
      obtain ⟨r1, hr1, hc1, hp1⟩ := hv
      obtain ⟨r2, hr2, hc2, hp2⟩ := hw
      rw [famProj_eq_some] at hp1 hp2
      exact hufm v w ⟨r1, hr1, hc1, hp1⟩ ⟨r2, hr2, hc2, hp2⟩

/-- C2 counterexample: serialization stores `text_area.get(1.0, END)`,
which appends the widget's automatic trailing newline, so one save/load
cycle of a reachable one-character document loads a two-character buffer:
the claimed identity `deserialize(serialize(doc)).text == doc.text`
fails. -/
theorem round_trip_text_gains_newline :
    ReachableDoc (insertTextOp ⟨false, false, false, 12, "Arial"⟩ ⟨12, "Arial"⟩ emptyDoc 0 ['a'])
    ∧ (openNote (serializeRecord []
        (insertTextOp ⟨false, false, false, 12, "Arial"⟩ ⟨12, "Arial"⟩ emptyDoc 0 ['a'])
        "t")).text = ['a', '\n']
    ∧ ((openNote (serializeRecord []
        (insertTextOp ⟨false, false, false, 12, "Arial"⟩ ⟨12, "Arial"⟩ emptyDoc 0 ['a'])
        "t")).text
      == (insertTextOp ⟨false, false, false, 12, "Arial"⟩ ⟨12, "Arial"⟩ emptyDoc 0 ['a']).text)
      = false :=
  ⟨ReachableDoc.insertText _ _ 0 ['a'] ReachableDoc.new, by decide, by decide⟩

/-- C2 (corrected): for a document holding no stored images — in the
source, an empty `images_data` also means no embedded display image,
since both image paths record a payload when they embed — whose text
does not contain the literal `[IMAGE:` token, whose fonts are plain
names, whose size ranges carry combo-box values and family ranges host
fonts, and whose size/family ranges are unambiguous wherever they
overlap, a save/load cycle reproduces the text buffer with one extra
trailing newline — not identically, as claimed — and reproduces the
resolved style set exactly at every offset.  Documents with an embedded
image are excluded because they fail further: the embedded picture
occupies one text-widget index, so the saved tag indices count it while
the saved `get(1.0, END)` content omits it, and reloading shifts every
same-line style by one position per preceding embedded image. -/
theorem round_trip_resolved_amended (fonts : List String) (d : Doc) (title : String)
    (settings : Settings)
    (himgs : d.images = [])
    (hni : containsSeq ("[IMAGE:".toList) (d.text ++ ['\n']) = false)
    (hfonts : ∀ f ∈ fonts, plainStr f = true)
    (hsz : ∀ r ∈ d.styles, ∀ n, r.kind = Kind.size n → n ∈ comboSizes)
    (hfm : ∀ r ∈ d.styles, ∀ f, r.kind = Kind.family f → f ∈ fonts)
    (husz : ∀ o : Nat, ∀ m n : Nat,
      (∃ r ∈ d.styles, coversAt r o = true ∧ r.kind = Kind.size m)
      → (∃ r ∈ d.styles, coversAt r o = true ∧ r.kind = Kind.size n) → m = n)
    (hufm : ∀ o : Nat, ∀ f g : String,
      (∃ r ∈ d.styles, coversAt r o = true ∧ r.kind = Kind.family f)
      → (∃ r ∈ d.styles, coversAt r o = true ∧ r.kind = Kind.family g) → f = g) :
    (openNote (serializeRecord fonts d title)).text = d.text ++ ['\n']
    ∧ ∀ o : Nat, resolvedAt settings (openNote (serializeRecord fonts d title)).styles o
        = resolvedAt settings d.styles o := by
  have hfam : ∀ g ∈ (save_formatting_data fonts d).font_family, plainStr g.1 = true := by
    intro g hg
    simp only [save_formatting_data, List.mem_filterMap] at hg
    obtain ⟨f, hf, hif⟩ := hg
    by_cases he : (collectPairs (.family f) d.styles).isEmpty
    · rw [if_pos he] at hif; cases hif
    · rw [if_neg he] at hif
      injection hif with h'
      rw [← h']
      exact hfonts f hf
  have himg : ∀ kv ∈ d.images, plainStr kv.1 = true ∧ ∃ s, kv.2 = Json.jstr s ∧ plainStr s = true := by
    intro kv hkv
    rw [himgs] at hkv
    cases hkv
  obtain ⟨ht, hs⟩ := openNote_serialize fonts d title hni himg hfam
  refine ⟨ht, fun o => ?_⟩
  rw [hs]
  exact resolvedAt_buildStyles fonts d settings o hsz hfm (husz o) (hufm o)

/-- C2 witness: a concrete two-character bolded document round-trips to
the text plus the trailing newline and to the same resolved styles at
offset 0. -/
theorem round_trip_resolved_amended_witness :
    (openNote (serializeRecord ["Arial"]
        ⟨['a', 'b'], [⟨Kind.bold, 0, 2⟩], [], 0⟩ "t")).text = ['a', 'b'] ++ ['\n']
    ∧ resolvedAt ⟨12, "Arial"⟩
        (openNote (serializeRecord ["Arial"]
          ⟨['a', 'b'], [⟨Kind.bold, 0, 2⟩], [], 0⟩ "t")).styles 0
        = resolvedAt ⟨12, "Arial"⟩ [⟨Kind.bold, 0, 2⟩] 0 := by
  have h := round_trip_resolved_amended ["Arial"] ⟨['a', 'b'], [⟨Kind.bold, 0, 2⟩], [], 0⟩
    "t" ⟨12, "Arial"⟩
    rfl
    (by decide)
    (by decide)
    (by
      intro r hr n hk
      simp only [List.mem_singleton] at hr
      subst hr
      simp at hk)
    (by
      intro r hr f hk
      simp only [List.mem_singleton] at hr
      subst hr
      simp at hk)
    (by
      rintro o m n ⟨r, hr, -, hk⟩ -
      simp only [List.mem_singleton] at hr
      subst hr
      simp at hk)
    (by
      rintro o f g ⟨r, hr, -, hk⟩ -
      simp only [List.mem_singleton] at hr
      subst hr
      simp at hk)
  exact ⟨h.1, h.2 0⟩
